import Mathlib

set_option maxHeartbeats 1000000
set_option linter.constructorNameAsVariable false
set_option linter.unusedVariables false

namespace Setvar

/-- Strings of the Python source are modelled as lists of characters. -/
abbrev Str := List Char

/-- The double-quote character. -/
def dquote : Char := Char.ofNat 34

/-- The single-quote character. -/
def squote : Char := Char.ofNat 39

/-- The backtick character. -/
def bquote : Char := Char.ofNat 96

/-- ASCII whitespace: the characters matched by the regex class mirrored from
the source's patterns and stripped by its value normalisation (restricted to
the ASCII range). -/
def isPyWs (c : Char) : Bool :=
  c == ' ' || c == '\t' || c == '\n' || c == '\r' || c == Char.ofNat 11 || c == Char.ofNat 12

/-- First character of an identifier: the class of letters and underscore. -/
def isIdentStart (c : Char) : Bool :=
  c.isAlpha || c == '_'

/-- Subsequent character of an identifier: letters, digits and underscore. -/
def isIdentChar (c : Char) : Bool :=
  c.isAlphanum || c == '_'

/-- A full identifier-grammar name: nonempty, letter or underscore first,
then letters, digits and underscores. -/
def isIdentName (n : Str) : Bool :=
  match n with
  | [] => false
  | c :: t => isIdentStart c && t.all isIdentChar

/-- Python-dict assignment on an association list: replace the value in place
if the key is present, otherwise append the binding at the end. -/
def dictSet {β : Type} (d : List (Str × β)) (k : Str) (v : β) : List (Str × β) :=
  if (List.lookup k d).isSome then
    d.map (fun p => if p.1 = k then (k, v) else p)
  else d ++ [(k, v)]

/-- Python-dict `update`: fold the right dict's bindings into the left one. -/
def dictUpdate {β : Type} (d e : List (Str × β)) : List (Str × β) :=
  e.foldl (fun acc p => dictSet acc p.1 p.2) d

/-- The rest-of-line capture of the source's `(.*)$`: succeeds when the string
has no newline other than possibly a final one, returning the string without
that final newline. -/
def takeNoNewline : Str → Option Str
  | [] => some []
  | c :: rest =>
    if c = '\n' then (if rest.isEmpty then some [] else none)
    else (takeNoNewline rest).map (fun b => c :: b)

/-- Python `str.strip()`: remove leading and trailing whitespace. -/
def pyStrip (s : Str) : Str :=
  ((s.dropWhile isPyWs).reverse.dropWhile isPyWs).reverse

/-- Remove one layer of surrounding quotes when the string both starts and
ends with the same quote character (single or double). -/
def stripQuotes (s : Str) : Str :=
  match s.head?, s.getLast? with
  | some f, some l =>
    if (f = dquote ∧ l = dquote) ∨ (f = squote ∧ l = squote) then (s.drop 1).dropLast else s
  | _, _ => s

/-- Normalise the text after `=`: reject interior newlines, strip whitespace,
then strip one matching quote layer. -/
def processRest (r : Str) : Option Str :=
  (takeNoNewline r).map (fun b => stripQuotes (pyStrip b))

/-- The bare `NAME=REST` form of `parse_export_line`, applied after leading
whitespace has been removed. -/
def tryBare (t : Str) : Option (Str × Str) :=
  match t with
  | [] => none
  | c :: _ =>
    if isIdentStart c then
      match t.dropWhile isIdentChar with
      | '=' :: r => (processRest r).map (fun v => (t.takeWhile isIdentChar, v))
      | _ => none
    else none

/-- The word `export`. -/
def exportWord : Str := ['e', 'x', 'p', 'o', 'r', 't']

/-- The `export NAME=REST` form of `parse_export_line`: the literal word
`export`, at least one whitespace character, then the bare form. -/
def tryExportForm (t : Str) : Option (Str × Str) :=
  if t.take 6 = exportWord then
    match t.drop 6 with
    | c :: u => if isPyWs c then tryBare (u.dropWhile isPyWs) else none
    | [] => none
  else none

/-- `SetVar.parse_export_line`: try the `export NAME=REST` pattern, then the
bare `NAME=REST` pattern, both anchored at the start after optional
whitespace. -/
def parse_export_line (line : Str) : Option (Str × Str) :=
  match tryExportForm (line.dropWhile isPyWs) with
  | some r => some r
  | none => tryBare (line.dropWhile isPyWs)

/-- The special characters that force double quoting in
`SetVar.format_export_line`. -/
def specialChars : List Char :=
  [' ', '\t', '$', bquote, dquote, squote, '\\', '!', '*', '?', '[', ']',
   '(', ')', Char.ofNat 123, Char.ofNat 125, '<', '>', '|', '&', ';']

/-- Whether a value needs quoting: it contains one of the special characters. -/
def needs_quotes (value : Str) : Bool :=
  value.any (fun c => specialChars.contains c)

/-- Escape embedded double quotes with a backslash. -/
def escapeDq (value : Str) : Str :=
  (value.map (fun c => if c = dquote then ['\\', dquote] else [c])).flatten

/-- `SetVar.format_export_line`: emit `export NAME=VALUE\n`, double-quoting the
value (escaping embedded double quotes) when it contains a special character. -/
def format_export_line (name value : Str) : Str :=
  if needs_quotes value then
    exportWord ++ ' ' :: (name ++ '=' :: (dquote :: (escapeDq value ++ [dquote, '\n'])))
  else
    exportWord ++ ' ' :: (name ++ '=' :: (value ++ ['\n']))

/-- Python `readlines()`: split text into lines, each keeping its trailing
newline; a final fragment without a newline is its own line. -/
def pyReadlines : Str → List Str
  | [] => []
  | c :: rest =>
    if c = '\n' then ['\n'] :: pyReadlines rest
    else
      match pyReadlines rest with
      | [] => [[c]]
      | l :: ls => (c :: l) :: ls

/-- Whether a line parses to an assignment of the given name. -/
def matchesName (l n : Str) : Bool :=
  match parse_export_line l with
  | some p => decide (p.1 = n)
  | none => false

/-- The supported shell types. -/
inductive Shell where
  | bash
  | zsh
  | sh
deriving DecidableEq

/-- The user's home directory, fixed for the model. -/
def home : Str := "/home/user".data

/-- The ordered candidate configuration files of each shell. -/
def Shell.config_files : Shell → List Str
  | .bash => [home ++ "/.bashrc".data, home ++ "/.bash_profile".data, home ++ "/.profile".data]
  | .zsh => [home ++ "/.zshrc".data, home ++ "/.zprofile".data, home ++ "/.zshenv".data]
  | .sh => [home ++ "/.profile".data]

/-- The string value of a shell, as used for dictionary keys. -/
def Shell.value : Shell → Str
  | .bash => "bash".data
  | .zsh => "zsh".data
  | .sh => "sh".data

/-- The metadata entry stored in every backup archive the tool creates. -/
structure Metadata where
  timestamp : Str
  files : List Str
  message : Str
deriving DecidableEq

/-- A backup archive: one entry per backed-up file (name and bytes), plus the
optional metadata entry (absent only in legacy archives). -/
structure Archive where
  entries : List (Str × Str)
  metadata : Option Metadata
deriving DecidableEq

/-- The mutable world: the text files addressed by path, the backup directory's
archives addressed by archive file name, and the current timestamp. -/
structure SVState where
  fs : List (Str × Str)
  store : List (Str × Archive)
  time : Str
deriving DecidableEq

/-- Whether a path exists in the filesystem. -/
def fsExists (st : SVState) (p : Str) : Bool :=
  (List.lookup p st.fs).isSome

/-- `SetVar.read_config_file`: the file's lines, or no lines when the file is
missing. -/
def read_config_file (st : SVState) (p : Str) : List Str :=
  pyReadlines ((List.lookup p st.fs).getD [])

/-- `SetVar.write_config_file`: replace the file's whole contents with the
given lines; a no-op under dry-run. -/
def write_config_file (dry : Bool) (st : SVState) (p : Str) (lines : List Str) : SVState :=
  if dry then st else { st with fs := dictSet st.fs p lines.flatten }

/-- `SetVar.find_existing_config_files`: the candidates that exist, in order. -/
def find_existing_config_files (st : SVState) (sh : Shell) : List Str :=
  sh.config_files.filter (fun f => fsExists st f)

/-- `SetVar.get_primary_config_file`: the first existing candidate, or the
first candidate overall, lazily created as an empty file unless dry-run. -/
def get_primary_config_file (dry : Bool) (st : SVState) (sh : Shell) : Str × SVState :=
  match find_existing_config_files st sh with
  | f :: _ => (f, st)
  | [] =>
    let p := sh.config_files.headD []
    if dry then (p, st) else (p, { st with fs := dictSet st.fs p [] })

/-- `SetVar.get_variables_from_file`: fold the parsed assignments of a file's
lines into a dict, later lines overriding earlier ones. -/
def varsFromLines (lines : List Str) : List (Str × Str) :=
  lines.foldl
    (fun d l =>
      match parse_export_line l with
      | some p => dictSet d p.1 p.2
      | none => d) []

/-- `SetVar.get_variables_from_file` on the state. -/
def get_variables_from_file (st : SVState) (p : Str) : List (Str × Str) :=
  varsFromLines (read_config_file st p)

/-- The per-shell merged variable map: existing files in candidate order, each
file's dict folded in with later files overriding earlier ones. -/
def shellVars (st : SVState) (sh : Shell) : List (Str × Str) :=
  (find_existing_config_files st sh).foldl
    (fun acc f => dictUpdate acc (get_variables_from_file st f)) []

/-- `SetVar.get_all_variables`: the merged variable map of each listed shell,
keyed by the shell's string value. -/
def get_all_variables (st : SVState) (shells : List Shell) : List (Str × List (Str × Str)) :=
  shells.foldl (fun acc sh => dictSet acc sh.value (shellVars st sh)) []

/-- The base filename of a path: everything after the last slash. -/
def baseName (p : Str) : Str :=
  (p.reverse.takeWhile (fun c => c != '/')).reverse

/-- The backup directory path. -/
def backupDir : Str := "/home/user/.config/setvar/backups/".data

/-- The default backup message. -/
def autoMsg : Str := "Auto-backup before changes".data

/-- `SetVar.create_backup`: none when backups are disabled, dry-run is active
or archive building fails (any exception is caught); otherwise store a new
timestamp-named archive holding each existing input file under its base
filename plus the metadata entry, and return the archive's path. -/
def create_backup (backupEnabled dry zipOk : Bool) (st : SVState) (files : List Str)
    (message : Option Str) : Option Str × SVState :=
  if !backupEnabled || dry then (none, st)
  else if !zipOk then (none, st)
  else
    let name := "backup_".data ++ st.time ++ ".zip".data
    let entries := (files.filter (fun f => fsExists st f)).map
      (fun f => (baseName f, (List.lookup f st.fs).getD []))
    let ar : Archive :=
      { entries := entries
        metadata := some { timestamp := st.time, files := files, message := message.getD autoMsg } }
    (some (backupDir ++ name), { st with store := dictSet st.store name ar })

/-- Lexicographic comparison of strings by character code, `a` at most `b`. -/
def lexLe : Str → Str → Bool
  | [], _ => true
  | _ :: _, [] => false
  | a :: as_, b :: bs => if a = b then lexLe as_ bs else decide (a < b)

/-- Insert into a descending-sorted list of strings. -/
def insertDesc (x : Str) : List Str → List Str
  | [] => [x]
  | y :: ys => if lexLe y x then x :: y :: ys else y :: insertDesc x ys

/-- Sort strings in descending lexicographic order. -/
def sortDesc (l : List Str) : List Str :=
  l.foldr insertDesc []

/-- Whether a string starts with the given prefix. -/
def strHasPrefix : Str → Str → Bool
  | [], _ => true
  | _ :: _, [] => false
  | a :: as_, b :: bs => a == b && strHasPrefix as_ bs

/-- Whether `needle` occurs as a contiguous substring of `hay`. -/
def strHasInfix (needle : Str) : Str → Bool
  | [] => needle.isEmpty
  | c :: t => strHasPrefix needle (c :: t) || strHasInfix needle t

/-- Whether a string ends with the given suffix. -/
def strHasSuffix (suffix s : Str) : Bool :=
  strHasPrefix suffix.reverse s.reverse

/-- Whether an archive file name matches the glob `backup_*.zip`. -/
def isBackupName (nm : Str) : Bool :=
  strHasPrefix "backup_".data nm && strHasSuffix ".zip".data nm

/-- One row of `SetVar.list_backups`' result. -/
structure BackupInfo where
  path : Str
  name : Str
  timestamp : Str
  message : Str
  files : List Str
deriving DecidableEq

/-- The stem of a backup file name with the `backup_` prefix removed, used by
the legacy fallback of `SetVar.list_backups`. -/
def legacyTimestamp (nm : Str) : Str :=
  (nm.take (nm.length - 4)).drop 7

/-- `SetVar.list_backups`: the newest `limit` archives (by name, descending),
each summarised from its metadata entry, with a legacy fallback when the
metadata entry is absent. -/
def list_backups (st : SVState) (limit : Nat) : List BackupInfo :=
  let names := (st.store.map (fun e => e.1)).filter isBackupName
  ((sortDesc names).take limit).filterMap
    (fun nm =>
      match List.lookup nm st.store with
      | none => none
      | some ar =>
        match ar.metadata with
        | some m =>
          some { path := backupDir ++ nm, name := nm, timestamp := m.timestamp,
                 message := m.message, files := m.files }
        | none =>
          some { path := backupDir ++ nm, name := nm, timestamp := legacyTimestamp nm,
                 message := "Legacy backup".data, files := ar.entries.map (fun e => e.1) })

/-- The restore destination of an archive entry: the home directory plus a dot
prepended to the entry's name. -/
def restoreDest (entryName : Str) : Str :=
  home ++ '/' :: '.' :: entryName

/-- `SetVar.restore_backup`: immediately succeed under dry-run; otherwise
resolve the archive by exact path or by substring match over the backup
directory, snapshot the files the restore would overwrite, then write every
archived entry's bytes to the home directory under a dot-prefixed version of
the entry's name. -/
def restore_backup (backupEnabled dry zipOk : Bool) (st : SVState) (backupId : Str) :
    Bool × SVState :=
  if dry then (true, st)
  else
    let byPath := st.store.find? (fun e => backupDir ++ e.1 = backupId)
    let resolved :=
      match byPath with
      | some e => some e
      | none =>
        if fsExists st backupId then none
        else st.store.find? (fun e => isBackupName e.1 && strHasInfix backupId (backupDir ++ e.1))
    match resolved with
    | none => (false, st)
    | some (_, ar) =>
      let filesToBackup := ar.entries.filterMap
        (fun e => if fsExists st (restoreDest e.1) then some (restoreDest e.1) else none)
      let st1 :=
        if filesToBackup.isEmpty then st
        else (create_backup backupEnabled dry zipOk st filesToBackup
          (some ("Pre-restore backup".data))).2
      let st2 := ar.entries.foldl
        (fun s e => { s with fs := dictSet s.fs (restoreDest e.1) e.2 }) st1
      (true, st2)

/-- The valid-name test of `SetVar.set_variable`: `re.match` of the anchored
identifier pattern, which also accepts a single trailing newline because `$`
matches before a final newline. -/
def pyValidName (n : Str) : Bool :=
  isIdentName n || (if n.getLast? = some '\n' then isIdentName n.dropLast else false)

/-- Whether the last of a list of lines ends with a newline. -/
def lastEndsNl (ls : List Str) : Bool :=
  match ls.getLast? with
  | some l => decide (l.getLast? = some '\n')
  | none => false

/-- The single-file rewrite pass of `SetVar.update_variable_in_file`: replace
every line that parses to an assignment of `name` with the formatted line; if
none matched, append the formatted line, first appending a newline when the
last line lacks one. -/
def updateLines (lines : List Str) (name value : Str) : List Str :=
  let fline := format_export_line name value
  let folded := lines.foldl
    (fun (acc : List Str × Bool) l =>
      if matchesName l name then (acc.1 ++ [fline], true) else (acc.1 ++ [l], acc.2))
    ([], false)
  if folded.2 then folded.1
  else
    (if folded.1 ≠ [] ∧ lastEndsNl folded.1 = false
     then folded.1 ++ ['\n'] :: [fline]
     else folded.1 ++ [fline])

/-- The whole-file contents transformation of `SetVar.update_variable_in_file`. -/
def updateFileContent (c : Str) (name value : Str) : Str :=
  (updateLines (pyReadlines c) name value).flatten

/-- `SetVar.update_variable_in_file` on the state: a no-op success under
dry-run, otherwise rewrite the file and report success. -/
def update_variable_in_file (dry : Bool) (st : SVState) (p : Str) (name value : Str) :
    Bool × SVState :=
  if dry then (true, st)
  else (true, write_config_file dry st p (updateLines (read_config_file st p) name value))

/-- The single-file removal pass of `SetVar.remove_variable_from_file`: keep
every line that does not parse to an assignment of `name`. -/
def removeLines (lines : List Str) (name : Str) : List Str :=
  lines.filter (fun l => !matchesName l name)

/-- `SetVar.remove_variable_from_file` on the state. -/
def remove_variable_from_file (dry : Bool) (st : SVState) (p : Str) (name : Str) :
    Bool × SVState :=
  if dry then (true, st)
  else (true, write_config_file dry st p (removeLines (read_config_file st p) name))

/-- The file-collection loop of `SetVar.set_variable` for one shell: the
shell's existing files (the primary one, created on demand, when none exist),
then the first file containing the variable, falling back to the first file. -/
def setCollectShell (dry : Bool) (n : Str) (acc : List Str × SVState) (sh : Shell) :
    List Str × SVState :=
  let (cfs, st') :=
    match find_existing_config_files acc.2 sh with
    | [] =>
      let (p, s2) := get_primary_config_file dry acc.2 sh
      ([p], s2)
    | f :: fs => (f :: fs, acc.2)
  let found := cfs.find? (fun f => (List.lookup n (get_variables_from_file st' f)).isSome)
  let tgt := found.getD (cfs.headD [])
  (if tgt ∈ acc.1 then acc.1 else acc.1 ++ [tgt], st')

/-- The update loop shared by `set_variable`: update each collected file,
reporting success only if every update succeeded. -/
def setApply (dry : Bool) (n v : Str) (files : List Str) (st : SVState) : Bool × SVState :=
  files.foldl
    (fun (acc : Bool × SVState) f =>
      let r := update_variable_in_file dry acc.2 f n v
      (acc.1 && r.1, r.2))
    (true, st)

/-- `SetVar.set_variable`: validate the name, collect one target file per
shell (deduplicated), ask for confirmation unless pre-approved or dry-run,
snapshot the files about to change, then update each. -/
def set_variable (backupEnabled dry confirms zipOk : Bool) (st : SVState) (n v : Str)
    (shells : List Shell) (skipConfirmation : Bool) (specificFile : Option Str) :
    Bool × SVState :=
  if !pyValidName n then (false, st)
  else
    let collected : Option (List Str × SVState) :=
      match specificFile with
      | some f => if fsExists st f then some ([f], st) else none
      | none => some (shells.foldl (setCollectShell dry n) ([], st))
    match collected with
    | none => (false, st)
    | some (files, st1) =>
      if ¬skipConfirmation ∧ ¬dry ∧ ¬confirms then (false, st1)
      else
        let st2 :=
          if backupEnabled ∧ ¬dry ∧ files ≠ [] then
            (create_backup backupEnabled dry zipOk st1 files
              (some ("Before setting".data ++ ' ' :: n ++ '=' :: v))).2
          else st1
        setApply dry n v files st2

/-- The file-collection loop of `SetVar.remove_variable`: every existing file
of every target shell that currently defines the name. -/
def removeCollect (st : SVState) (n : Str) (shells : List Shell) : List Str :=
  shells.foldl
    (fun acc sh =>
      acc ++ (find_existing_config_files st sh).filter
        (fun f => (List.lookup n (get_variables_from_file st f)).isSome))
    []

/-- The removal loop of `remove_variable`: remove the variable from each
collected file, reporting success only if every removal succeeded. -/
def removeApply (dry : Bool) (n : Str) (files : List Str) (st : SVState) : Bool × SVState :=
  files.foldl
    (fun (acc : Bool × SVState) f =>
      let r := remove_variable_from_file dry acc.2 f n
      (acc.1 && r.1, r.2))
    (true, st)

/-- `SetVar.remove_variable`: gather the files defining the name; when there
are none this is a successful no-op; otherwise confirm, snapshot and remove
the variable from each file. -/
def remove_variable (backupEnabled dry confirms zipOk : Bool) (st : SVState) (n : Str)
    (shells : List Shell) (skipConfirmation : Bool) : Bool × SVState :=
  let files := removeCollect st n shells
  if files = [] then (true, st)
  else if ¬skipConfirmation ∧ ¬dry ∧ ¬confirms then (false, st)
  else
    let st1 :=
      if backupEnabled ∧ ¬dry then
        (create_backup backupEnabled dry zipOk st files
          (some ("Before removing".data ++ ' ' :: n))).2
      else st
    removeApply dry n files st1

/-- A glob pattern match with `*`, `?` and `[...]` semantics, modelling
`fnmatch.fnmatch` on a case-sensitive filesystem. -/
def globMatch : Str → Str → Bool
  | [], [] => true
  | [], _ :: _ => false
  | '*' :: ps, s =>
    globMatch ps s || (match s with
      | [] => false
      | _ :: t => globMatch ('*' :: ps) t)
  | '?' :: ps, s =>
    (match s with
     | [] => false
     | _ :: t => globMatch ps t)
  | '[' :: ps, s =>
    (match s with
     | [] => false
     | c :: t =>
       let cls := ps.takeWhile (fun d => d != ']')
       let rest := (ps.dropWhile (fun d => d != ']')).drop 1
       cls.contains c && globMatch rest t)
  | p :: ps, s =>
    (match s with
     | [] => false
     | c :: t => p == c && globMatch ps t)

/-- The changes recorded for one destination shell by `SetVar.sync_variables`:
every source variable whose destination value differs or is absent, tagged
with the new value and the prior value or the `[not set]` sentinel. -/
def buildChanges (src dst : List (Str × Str)) : List (Str × Str × Str) :=
  src.foldl
    (fun acc p =>
      if List.lookup p.1 dst = some p.2 then acc
      else acc ++ [(p.1, p.2, (List.lookup p.1 dst).getD "[not set]".data)])
    []

/-- The sync plan of `SetVar.sync_variables`: one entry per destination shell
(the source shell itself excluded) that has at least one differing variable. -/
def buildPlan (st : SVState) (fromShell : Shell) (toShells : List Shell)
    (src : List (Str × Str)) : List (Shell × List (Str × Str × Str)) :=
  toShells.foldl
    (fun acc t =>
      if t = fromShell then acc
      else
        let ch := buildChanges src (shellVars st t)
        if ch = [] then acc else acc ++ [(t, ch)])
    []

/-- `SetVar.sync_variables`: compute the source shell's merged variables,
optionally filter them by glob patterns, build the plan, confirm unless
pre-approved or dry-run, and apply the plan variable by variable through
`set_variable` with confirmation pre-approved. -/
def sync_variables (backupEnabled dry confirms zipOk : Bool) (st : SVState)
    (fromShell : Shell) (toShells : List Shell) (keys : Option (List Str))
    (skipConfirmation : Bool) : Bool × SVState :=
  let src0 := shellVars st fromShell
  if src0 = [] then (true, st)
  else
    let src :=
      match keys with
      | none => src0
      | some pats => src0.filter (fun p => pats.any (fun pat => globMatch pat p.1))
    if src = [] then (true, st)
    else
      let plan := buildPlan st fromShell toShells src
      if plan = [] then (true, st)
      else if ¬skipConfirmation ∧ ¬dry ∧ ¬confirms then (false, st)
      else
        plan.foldl
          (fun (acc : Bool × SVState) pe =>
            pe.2.foldl
              (fun (acc2 : Bool × SVState) ch =>
                let r := set_variable backupEnabled dry confirms zipOk acc2.2 ch.1 ch.2.1
                  [pe.1] true none
                (acc2.1 && r.1, r.2))
              acc)
          (true, st)

/-- The value part of a formatted line: the quoted-and-escaped value when
quoting is needed, the raw value otherwise. -/
def quoteVal (v : Str) : Str :=
  if needs_quotes v then dquote :: (escapeDq v ++ [dquote]) else v

/-- A well-formed line as produced by `pyReadlines`: nonempty, with a newline
at most as its final character. -/
def properLine (m : Str) : Prop :=
  m ≠ [] ∧ '\n' ∉ m.dropLast

/-- A well-formed line list as produced by `pyReadlines`: every line proper
and every line except possibly the last ending with a newline. -/
def ProperLines : List Str → Prop
  | [] => True
  | m :: ms => properLine m ∧ (ms = [] ∨ m.getLast? = some '\n') ∧ ProperLines ms

/-- A line list whose every line is proper and ends with a newline. -/
def AllNlLines : List Str → Prop
  | [] => True
  | m :: ms => properLine m ∧ m.getLast? = some '\n' ∧ AllNlLines ms

/-- The value a line assigns to a name, when it parses to that name. -/
def assignOf (l y : Str) : Option Str :=
  match parse_export_line l with
  | some p => if p.1 = y then some p.2 else none
  | none => none

/-- The most recent parsed assignment of a name among a list of lines. -/
def lastAssign (lines : List Str) (y : Str) : Option Str :=
  lines.reverse.findSome? (fun l => assignOf l y)

/-- The lines of the file written by `update_variable_in_file`, as read back:
the same as `updateLines` except that the separately appended newline merges
into the previously unterminated last line. -/
def updatedLines (ls : List Str) (n v : Str) : List Str :=
  if ls.any (fun l => matchesName l n) then
    ls.map (fun l => if matchesName l n then format_export_line n v else l)
  else if ls = [] then [format_export_line n v]
  else if lastEndsNl ls then ls ++ [format_export_line n v]
  else ls.dropLast ++ [(ls.getLast?.getD []) ++ ['\n'], format_export_line n v]

/-- The whole-file contents transformation of `remove_variable_from_file`. -/
def removeFileContent (c : Str) (name : Str) : Str :=
  (removeLines (pyReadlines c) name).flatten

/-- The filesystem effect of the update loop of `set_variable`, as a pure
function of the file map. -/
def applyFsOnly (dry : Bool) (n v : Str) (files : List Str) (fs : List (Str × Str)) :
    List (Str × Str) :=
  files.foldl
    (fun fs f =>
      if dry then fs
      else dictSet fs f (updateFileContent ((List.lookup f fs).getD []) n v))
    fs

/-- The filesystem effect of the removal loop of `remove_variable`, as a pure
function of the file map. -/
def removeFsOnly (dry : Bool) (n : Str) (files : List Str) (fs : List (Str × Str)) :
    List (Str × Str) :=
  files.foldl
    (fun fs f =>
      if dry then fs
      else dictSet fs f (removeFileContent ((List.lookup f fs).getD []) n))
    fs

/-- An association list whose keys are pairwise distinct. -/
def NodupKeys {β : Type} (d : List (Str × β)) : Prop :=
  (d.map Prod.fst).Nodup

/-- A sample configuration-file path. -/
def fC7 : Str := "/home/user/.bashrc".data

/-- An initially empty world. -/
def stEmpty : SVState := { fs := [], store := [], time := [] }

/-- A world whose only configuration file defines only `B`. -/
def stC8 : SVState :=
  { fs := [(home ++ "/.bashrc".data, "export B=1\n".data)], store := [], time := [] }

/-- A world with one bash configuration file, to be backed up and restored. -/
def stC2 : SVState :=
  { fs := [(home ++ "/.bashrc".data, "export A=1\n".data)]
    store := []
    time := "20260101_000000".data }

/-- The world after backing up `.bashrc`. -/
def stC2backup : SVState :=
  (create_backup true false true stC2 [home ++ "/.bashrc".data] (some ("msg".data))).2

/-- The world after `.bashrc` changes following the backup. -/
def stC2modified : SVState :=
  { stC2backup with
    fs := dictSet stC2backup.fs (home ++ "/.bashrc".data) ("export A=2\n".data) }

/-- The result of restoring the backup into the modified world. -/
def stC2restored : Bool × SVState :=
  restore_backup true false true stC2modified
    (backupDir ++ "backup_20260101_000000.zip".data)

/-- A world where the first and third bash candidate files define `X` with
different values. -/
def stC4 : SVState :=
  { fs := [(home ++ "/.bashrc".data, "export X=1\n".data),
           (home ++ "/.profile".data, "export X=2\n".data)]
    store := []
    time := [] }

/-- The per-destination inner fold of `sync_variables`: apply each recorded
change to the single destination shell through `set_variable` with
confirmation pre-approved. -/
def syncFoldTo (be conf z : Bool) (tsh : Shell) (ch : List (Str × Str × Str))
    (acc : Bool × SVState) : Bool × SVState :=
  ch.foldl
    (fun (acc2 : Bool × SVState) c =>
      let r := set_variable be false conf z acc2.2 c.1 c.2.1 [tsh] true none
      (acc2.1 && r.1, r.2)) acc

/-- A world where the first and third bash candidate files both define `X`
(differently) while zsh defines it in `.zshrc`: syncing zsh to bash writes the
first bash file but reads back the third. -/
def stC1 : SVState :=
  { fs := [(home ++ "/.zshrc".data, "export X=5\n".data),
           (home ++ "/.bashrc".data, "export X=1\n".data),
           (home ++ "/.profile".data, "export X=2\n".data)]
    store := []
    time := "20260101_000000".data }

/-- A world with a single existing destination file for bash, used to witness
the amended sync-convergence statement. -/
def stC1w : SVState :=
  { fs := [(home ++ "/.zshrc".data, "export X=5\n".data),
           (home ++ "/.bashrc".data, "export X=1\n".data)]
    store := []
    time := "20260101_000000".data }

theorem ws_cases {c : Char} (h : isPyWs c = true) :
    c = ' ' ∨ c = '\t' ∨ c = '\n' ∨ c = '\r' ∨ c = Char.ofNat 11 ∨ c = Char.ofNat 12 := by
  simpa [isPyWs, or_assoc] using h

theorem identChar_not_ws {c : Char} (h : isIdentChar c = true) : isPyWs c = false := by
  cases hw : isPyWs c
  · rfl
  · rcases ws_cases hw with rfl | rfl | rfl | rfl | rfl | rfl <;> exact absurd h (by decide)

theorem identStart_identChar {c : Char} (h : isIdentStart c = true) : isIdentChar c = true := by
  have h' : c.isAlpha = true ∨ c = '_' := by simpa [isIdentStart] using h
  rcases h' with h1 | rfl
  · simp [isIdentChar, Char.isAlphanum, h1]
  · decide

theorem identStart_not_ws {c : Char} (h : isIdentStart c = true) : isPyWs c = false :=
  identChar_not_ws (identStart_identChar h)

theorem identChar_ne_eq {c : Char} (h : isIdentChar c = true) : c ≠ '=' := by
  rintro rfl; exact absurd h (by decide)

theorem identChar_ne_nl {c : Char} (h : isIdentChar c = true) : c ≠ '\n' := by
  rintro rfl; exact absurd h (by decide)

theorem identName_parts {n : Str} (h : isIdentName n = true) :
    ∃ c t, n = c :: t ∧ isIdentStart c = true ∧ ∀ a ∈ t, isIdentChar a = true := by
  cases n with
  | nil => exact absurd h (by decide)
  | cons c t =>
    simp only [isIdentName, Bool.and_eq_true, List.all_eq_true] at h
    exact ⟨c, t, rfl, h.1, h.2⟩

theorem identName_all {n : Str} (h : isIdentName n = true) : ∀ a ∈ n, isIdentChar a = true := by
  obtain ⟨c, t, rfl, hc, ht⟩ := identName_parts h
  intro a ha
  rcases List.mem_cons.mp ha with rfl | ha
  · exact identStart_identChar hc
  · exact ht a ha

theorem takeNoNewline_concat_nl {X : Str} (hX : '\n' ∉ X) :
    takeNoNewline (X ++ ['\n']) = some X := by
  induction X with
  | nil => rfl
  | cons c X ih =>
    have hc : c ≠ '\n' := fun h => hX (h ▸ List.mem_cons_self c X)
    have hX' : '\n' ∉ X := fun h => hX (List.mem_cons_of_mem _ h)
    simp [takeNoNewline, hc, ih hX']

theorem takeNoNewline_of_no_nl {X : Str} (hX : '\n' ∉ X) : takeNoNewline X = some X := by
  induction X with
  | nil => rfl
  | cons c X ih =>
    have hc : c ≠ '\n' := fun h => hX (h ▸ List.mem_cons_self c X)
    have hX' : '\n' ∉ X := fun h => hX (List.mem_cons_of_mem _ h)
    simp [takeNoNewline, hc, ih hX']

theorem takeNoNewline_concat_nl_of_mem {X : Str} (hX : '\n' ∈ X) :
    takeNoNewline (X ++ ['\n']) = none := by
  induction X with
  | nil => simp at hX
  | cons c X ih =>
    by_cases hc : c = '\n'
    · subst hc
      simp [takeNoNewline]
    · have hX' : '\n' ∈ X := by
        rcases List.mem_cons.mp hX with h | h
        · exact absurd h.symm hc
        · exact h
      simp [takeNoNewline, hc, ih hX']

theorem pyStrip_of_ends_not_ws {X : Str}
    (h1 : ∀ c, X.head? = some c → isPyWs c = false)
    (h2 : ∀ c, X.getLast? = some c → isPyWs c = false) :
    pyStrip X = X := by
  unfold pyStrip
  have e1 : X.dropWhile isPyWs = X := by
    cases X with
    | nil => rfl
    | cons c t => exact List.dropWhile_cons_of_neg (by simp [h1 c rfl])
  rw [e1]
  have e2 : X.reverse.dropWhile isPyWs = X.reverse := by
    cases hr : X.reverse with
    | nil => rfl
    | cons c t =>
      have : X.getLast? = some c := by
        rw [← List.head?_reverse, hr]; rfl
      exact List.dropWhile_cons_of_neg (by simp [h2 c this])
  rw [e2, List.reverse_reverse]

theorem stripQuotes_of_head_not_quote {X : Str}
    (h : ∀ c, X.head? = some c → c ≠ dquote ∧ c ≠ squote) :
    stripQuotes X = X := by
  unfold stripQuotes
  cases hh : X.head? with
  | none => simp
  | some f =>
    cases hl : X.getLast? with
    | none => simp
    | some l =>
      have hf := h f hh
      simp [hf.1, hf.2]

theorem stripQuotes_quoted {q : Char} (l : Str) (hq : q = dquote ∨ q = squote) :
    stripQuotes (q :: (l ++ [q])) = l := by
  unfold stripQuotes
  have hh : (q :: (l ++ [q])).head? = some q := rfl
  have hl : (q :: (l ++ [q])).getLast? = some q := by
    rw [← List.cons_append, List.getLast?_concat]
  rw [hh, hl]
  rcases hq with rfl | rfl <;> simp

theorem tryBare_spec (n R : Str) (hn : isIdentName n = true) :
    tryBare (n ++ '=' :: R) = (processRest R).map (fun v => (n, v)) := by
  obtain ⟨c, t, hct, hc, _⟩ := identName_parts hn
  have hall : ∀ a ∈ n, isIdentChar a = true := identName_all hn
  have htw : (n ++ '=' :: R).takeWhile isIdentChar = n := by
    rw [List.takeWhile_append_of_pos hall, List.takeWhile_cons_of_neg (by decide)]
    simp
  have hdw : (n ++ '=' :: R).dropWhile isIdentChar = '=' :: R := by
    rw [List.dropWhile_append_of_pos hall, List.dropWhile_cons_of_neg (by decide)]
  subst hct
  show tryBare (c :: (t ++ '=' :: R)) = _
  unfold tryBare
  rw [List.cons_append] at hdw htw
  simp only [hc, if_true, hdw, htw]

theorem tryExportForm_none_of_ident (n R : Str) (hn : isIdentName n = true) :
    tryExportForm (n ++ '=' :: R) = none := by
  unfold tryExportForm
  by_cases h6 : (n ++ '=' :: R).take 6 = exportWord
  · rcases Nat.lt_or_ge n.length 6 with hlen | hlen
    · exfalso
      have ht : (n ++ '=' :: R).take 6 = n ++ ('=' :: R).take (6 - n.length) := by
        rw [List.take_append_eq_append_take, List.take_of_length_le (Nat.le_of_lt hlen)]
      have hpos : 6 - n.length = (6 - n.length - 1) + 1 := by omega
      have hmem : '=' ∈ (n ++ '=' :: R).take 6 := by
        rw [ht, hpos, List.take_succ_cons]
        exact List.mem_append_right _ (List.mem_cons_self _ _)
      rw [h6] at hmem
      exact absurd hmem (by decide)
    · rcases Nat.eq_or_lt_of_le hlen with heq | hlt
      · have hd : (n ++ '=' :: R).drop 6 = '=' :: R := List.drop_left' heq.symm
        rw [if_pos h6, hd]
        simp [isPyWs]
      · have hd : (n ++ '=' :: R).drop 6 = n.drop 6 ++ '=' :: R := by
          rw [List.drop_append_eq_append_drop]
          have : 6 - n.length = 0 := by omega
          rw [this]
          rfl
        cases hdn : n.drop 6 with
        | nil =>
          exfalso
          have := List.length_drop 6 n
          rw [hdn] at this
          simp at this
          omega
        | cons a u =>
          have ha : a ∈ n := List.drop_subset 6 n (by rw [hdn]; exact List.mem_cons_self _ _)
          have haw : isPyWs a = false := identChar_not_ws (identName_all hn a ha)
          rw [if_pos h6, hd, hdn]
          simp [haw]
  · rw [if_neg h6]

theorem parse_line_bare (w n R : Str) (hw : ∀ c ∈ w, isPyWs c = true)
    (hn : isIdentName n = true) :
    parse_export_line (w ++ (n ++ '=' :: R)) = (processRest R).map (fun v => (n, v)) := by
  obtain ⟨c, t, hct, hc, _⟩ := identName_parts hn
  unfold parse_export_line
  have hdw : (w ++ (n ++ '=' :: R)).dropWhile isPyWs = n ++ '=' :: R := by
    rw [List.dropWhile_append_of_pos hw, hct, List.cons_append,
      List.dropWhile_cons_of_neg (by simp [identStart_not_ws hc]), ← List.cons_append, ← hct]
  rw [hdw, tryExportForm_none_of_ident n R hn, tryBare_spec n R hn]

theorem tryBare_cons (c : Char) (t : Str) :
    tryBare (c :: t) =
      (if isIdentStart c then
        match (c :: t).dropWhile isIdentChar with
        | '=' :: r => (processRest r).map (fun v => ((c :: t).takeWhile isIdentChar, v))
        | _ => none
      else none) := rfl

theorem tryExportForm_pos (u : Str) :
    tryExportForm (exportWord ++ ' ' :: u) = tryBare (u.dropWhile isPyWs) := by
  unfold tryExportForm
  rw [if_pos (List.take_left' (show exportWord.length = 6 from rfl)),
    List.drop_left' (show exportWord.length = 6 from rfl)]
  show (if isPyWs ' ' then tryBare (u.dropWhile isPyWs) else none) = _
  rw [if_pos (show isPyWs ' ' = true by decide)]

theorem tryBare_exportWord_space (u : Str) :
    tryBare (exportWord ++ ' ' :: u) = none := by
  have hdw : (exportWord ++ ' ' :: u).dropWhile isIdentChar = ' ' :: u := by
    rw [List.dropWhile_append_of_pos (by decide)]
    exact List.dropWhile_cons_of_neg (by decide)
  show tryBare ('e' :: (['x', 'p', 'o', 'r', 't'] ++ ' ' :: u)) = none
  rw [tryBare_cons, if_pos (show isIdentStart 'e' = true by decide)]
  have hdw' : ('e' :: (['x', 'p', 'o', 'r', 't'] ++ ' ' :: u)).dropWhile isIdentChar
      = ' ' :: u := hdw
  rw [hdw']
  rfl

theorem parse_line_export (w n R : Str) (hw : ∀ c ∈ w, isPyWs c = true)
    (hn : isIdentName n = true) :
    parse_export_line (w ++ (exportWord ++ ' ' :: (n ++ '=' :: R))) =
      (processRest R).map (fun v => (n, v)) := by
  obtain ⟨c, t, hct, hc, _⟩ := identName_parts hn
  unfold parse_export_line
  have hdw : (w ++ (exportWord ++ ' ' :: (n ++ '=' :: R))).dropWhile isPyWs =
      exportWord ++ ' ' :: (n ++ '=' :: R) := by
    rw [List.dropWhile_append_of_pos hw]
    exact List.dropWhile_cons_of_neg (by decide)
  have hdwn : (n ++ '=' :: R).dropWhile isPyWs = n ++ '=' :: R := by
    rw [hct, List.cons_append]
    exact List.dropWhile_cons_of_neg (by simp [identStart_not_ws hc])
  rw [hdw, tryExportForm_pos, hdwn, tryBare_spec n R hn]
  cases hr : processRest R with
  | some v => rfl
  | none => simpa using tryBare_exportWord_space (n ++ '=' :: R)

theorem format_shape (n v : Str) :
    format_export_line n v = exportWord ++ ' ' :: (n ++ '=' :: (quoteVal v ++ ['\n'])) := by
  unfold format_export_line quoteVal
  by_cases h : needs_quotes v = true
  · rw [if_pos h, if_pos h]
    simp
  · rw [if_neg h, if_neg h]

theorem escapeDq_of_no_dq {v : Str} (h : dquote ∉ v) : escapeDq v = v := by
  induction v with
  | nil => rfl
  | cons c t ih =>
    have hc : c ≠ dquote := fun e => h (e ▸ List.mem_cons_self c t)
    simp only [escapeDq, List.map_cons, List.flatten_cons, if_neg hc]
    simpa using ih (fun m => h (List.mem_cons_of_mem _ m))

theorem mem_escapeDq_iff {c : Char} (hc : c ≠ dquote) (hb : c ≠ '\\') {v : Str} :
    c ∈ escapeDq v ↔ c ∈ v := by
  induction v with
  | nil => simp [escapeDq]
  | cons d t ih =>
    have hstep : escapeDq (d :: t) =
        (if d = dquote then ['\\', dquote] else [d]) ++ escapeDq t := by
      simp [escapeDq]
    rw [hstep]
    constructor
    · intro h
      rcases List.mem_append.mp h with h | h
      · by_cases hd : d = dquote
        · rw [if_pos hd] at h
          rcases List.mem_cons.mp h with rfl | h
          · exact absurd rfl hb
          · rcases List.mem_cons.mp h with rfl | h
            · exact absurd rfl hc
            · simp at h
        · rw [if_neg hd] at h
          rcases List.mem_cons.mp h with rfl | h
          · exact List.mem_cons_self _ _
          · simp at h
      · exact List.mem_cons_of_mem _ (ih.mp h)
    · intro h
      rcases List.mem_cons.mp h with rfl | h
      · by_cases hd : c = dquote
        · exact absurd hd hc
        · exact List.mem_append_left _ (by rw [if_neg hd]; exact List.mem_cons_self _ _)
      · exact List.mem_append_right _ (ih.mpr h)

theorem nl_mem_quoteVal_iff {v : Str} : '\n' ∈ quoteVal v ↔ '\n' ∈ v := by
  unfold quoteVal
  by_cases h : needs_quotes v = true
  · rw [if_pos h]
    simp only [List.mem_cons, List.mem_append, List.mem_singleton]
    constructor
    · rintro (hnl | hm | hnl) <;>
        first
          | exact absurd hnl (by decide)
          | exact (mem_escapeDq_iff (by decide) (by decide)).mp hm
    · intro hm
      exact Or.inr (Or.inl ((mem_escapeDq_iff (by decide) (by decide)).mpr hm))
  · rw [if_neg h]

theorem not_special_of_needs_quotes_false {v : Str} (h : needs_quotes v = false) :
    ∀ c ∈ v, specialChars.contains c = false := by
  intro c hc
  by_contra hcc
  have : needs_quotes v = true := by
    unfold needs_quotes
    rw [List.any_eq_true]
    exact ⟨c, hc, by simpa using hcc⟩
  rw [h] at this
  exact absurd this (by decide)

theorem parse_format (n v : Str) (hn : isIdentName n = true) (hvnl : '\n' ∉ v) :
    parse_export_line (format_export_line n v) = some (n, stripQuotes (pyStrip (quoteVal v))) := by
  rw [format_shape]
  have h := parse_line_export [] n (quoteVal v ++ ['\n']) (by simp) hn
  rw [List.nil_append] at h
  rw [h]
  unfold processRest
  rw [takeNoNewline_concat_nl (fun m => hvnl (nl_mem_quoteVal_iff.mp m))]
  rfl

theorem no_nl_of_parse_format {n v : Str} {p : Str × Str} (hn : isIdentName n = true)
    (h : parse_export_line (format_export_line n v) = some p) : '\n' ∉ v := by
  intro hv
  rw [format_shape] at h
  have he := parse_line_export [] n (quoteVal v ++ ['\n']) (by simp) hn
  rw [List.nil_append] at he
  rw [he] at h
  unfold processRest at h
  rw [takeNoNewline_concat_nl_of_mem (nl_mem_quoteVal_iff.mpr hv)] at h
  simp at h

theorem matchesName_format (n v : Str) (hn : isIdentName n = true) (hvnl : '\n' ∉ v) :
    matchesName (format_export_line n v) n = true := by
  unfold matchesName
  rw [parse_format n v hn hvnl]
  simp

theorem strip_quoteVal_quoted {v : Str} (hq : needs_quotes v = true) (hdq : dquote ∉ v) :
    stripQuotes (pyStrip (quoteVal v)) = v := by
  unfold quoteVal
  rw [if_pos hq]
  rw [pyStrip_of_ends_not_ws
    (by intro c hc; simp only [List.head?_cons, Option.some.injEq] at hc; subst hc; decide)
    (by
      intro c hc
      rw [show dquote :: (escapeDq v ++ [dquote]) = (dquote :: escapeDq v) ++ [dquote] by simp,
        List.getLast?_concat] at hc
      simp only [Option.some.injEq] at hc
      subst hc
      decide)]
  rw [stripQuotes_quoted (escapeDq v) (Or.inl rfl), escapeDq_of_no_dq hdq]

theorem strip_quoteVal_unquoted {v : Str} (hq : needs_quotes v = false)
    (h1 : ∀ c, v.head? = some c → isPyWs c = false)
    (h2 : ∀ c, v.getLast? = some c → isPyWs c = false) :
    stripQuotes (pyStrip (quoteVal v)) = v := by
  unfold quoteVal
  rw [if_neg (by simp [hq])]
  rw [pyStrip_of_ends_not_ws h1 h2]
  refine stripQuotes_of_head_not_quote ?_
  intro c hc
  have hm : c ∈ v := List.mem_of_mem_head? (by rw [hc]; exact rfl)
  have := not_special_of_needs_quotes_false hq c hm
  constructor
  · rintro rfl
    exact absurd this (by decide)
  · rintro rfl
    exact absurd this (by decide)

theorem updateFold_eq (n v : Str) (lines : List Str) (acc : List Str) (b : Bool) :
    lines.foldl
      (fun (a : List Str × Bool) l =>
        if matchesName l n then (a.1 ++ [format_export_line n v], true) else (a.1 ++ [l], a.2))
      (acc, b)
    = (acc ++ lines.map (fun l => if matchesName l n then format_export_line n v else l),
       b || lines.any (fun l => matchesName l n)) := by
  induction lines generalizing acc b with
  | nil => simp
  | cons l ls ih =>
    by_cases h : matchesName l n
    · rw [List.foldl_cons, if_pos h, ih]
      simp [h]
    · rw [List.foldl_cons, if_neg h, ih]
      simp [h]

theorem updateLines_of_match (lines : List Str) (n v : Str)
    (h : lines.any (fun l => matchesName l n) = true) :
    updateLines lines n v =
      lines.map (fun l => if matchesName l n then format_export_line n v else l) := by
  unfold updateLines
  dsimp only
  rw [updateFold_eq, h]
  simp

theorem updateLines_of_no_match (lines : List Str) (n v : Str)
    (h : lines.any (fun l => matchesName l n) = false) :
    updateLines lines n v =
      if lines ≠ [] ∧ lastEndsNl lines = false
      then lines ++ ['\n'] :: [format_export_line n v]
      else lines ++ [format_export_line n v] := by
  have hmap : lines.map (fun l => if matchesName l n then format_export_line n v else l)
      = lines := by
    have hno : ∀ l ∈ lines, matchesName l n = false := by
      intro l hl
      by_contra hc
      have : lines.any (fun l => matchesName l n) = true :=
        List.any_eq_true.mpr ⟨l, hl, by simpa using hc⟩
      rw [h] at this
      exact absurd this (by decide)
    calc lines.map (fun l => if matchesName l n then format_export_line n v else l)
        = lines.map id := List.map_congr_left (fun l hl => by rw [hno l hl]; simp)
      _ = lines := List.map_id lines
  unfold updateLines
  dsimp only
  rw [updateFold_eq, h, hmap]
  simp

/-- Claim C6: `update_variable_in_file` replaces every line parsing to an
assignment of the name with the canonical formatted line, reproduces every
other line verbatim in its original position, and leaves the line count
unchanged whenever at least one line matched. -/
theorem C6_duplicate_rewrite (lines : List Str) (n v : Str)
    (h : ∃ l ∈ lines, matchesName l n = true) :
    updateLines lines n v =
        lines.map (fun l => if matchesName l n then format_export_line n v else l) ∧
      (updateLines lines n v).length = lines.length := by
  have hb : lines.any (fun l => matchesName l n) = true := List.any_eq_true.mpr h
  refine ⟨updateLines_of_match lines n v hb, ?_⟩
  rw [updateLines_of_match lines n v hb, List.length_map]

/-- Witness for C6 at a file with a duplicated assignment of `X` interleaved
with a comment and a blank line. -/
theorem C6_duplicate_rewrite_witness :
    (∃ l ∈ ["export X=1\n".data, "# c\n".data, "\n".data, "X=2\n".data],
        matchesName l ("X".data) = true) ∧
      (updateLines ["export X=1\n".data, "# c\n".data, "\n".data, "X=2\n".data]
          ("X".data) ("9".data) =
        ["export X=9\n".data, "# c\n".data, "\n".data, "export X=9\n".data].map id ∧
       True) ∧
      updateLines ["export X=1\n".data, "# c\n".data, "\n".data, "X=2\n".data]
          ("X".data) ("9".data) =
        ["export X=1\n".data, "# c\n".data, "\n".data, "X=2\n".data].map
          (fun l => if matchesName l ("X".data) then format_export_line ("X".data) ("9".data)
            else l) ∧
      (updateLines ["export X=1\n".data, "# c\n".data, "\n".data, "X=2\n".data]
          ("X".data) ("9".data)).length
        = (["export X=1\n".data, "# c\n".data, "\n".data, "X=2\n".data] : List Str).length :=
  ⟨by decide, ⟨by decide, trivial⟩,
    C6_duplicate_rewrite ["export X=1\n".data, "# c\n".data, "\n".data, "X=2\n".data]
      ("X".data) ("9".data) (by decide)⟩

/-- Claim C3 counterexample: for the value `a"b` the round-trip through
`format_export_line` then `parse_export_line` does not return the value
unchanged (the backslash escaping of the embedded quote is never undone). -/
theorem C3_roundtrip_cex :
    parse_export_line (format_export_line ("A".data) ['a', dquote, 'b']) =
        some ("A".data, ['a', '\\', dquote, 'b']) ∧
      parse_export_line (format_export_line ("A".data) ['a', dquote, 'b']) ≠
        some ("A".data, ['a', dquote, 'b']) := by
  exact ⟨by decide, by decide⟩

/-- Claim C3 (amended): for every identifier name and every value that
contains no double quote and no newline, and that, when it does not trigger
quoting, neither starts nor ends with whitespace, parsing the formatted line
returns exactly the pair unchanged. -/
theorem C3_roundtrip_amended (n v : Str) (hn : isIdentName n = true)
    (hdq : dquote ∉ v) (hnl : '\n' ∉ v)
    (hedge : needs_quotes v = true ∨
      ((∀ c, v.head? = some c → isPyWs c = false) ∧
       (∀ c, v.getLast? = some c → isPyWs c = false))) :
    parse_export_line (format_export_line n v) = some (n, v) := by
  rw [parse_format n v hn hnl]
  rcases hedge with hq | ⟨h1, h2⟩
  · rw [strip_quoteVal_quoted hq hdq]
  · by_cases hq : needs_quotes v = true
    · rw [strip_quoteVal_quoted hq hdq]
    · rw [strip_quoteVal_unquoted (by simpa using hq) h1 h2]

/-- Witness for the amended C3 at name `A` and the quoted value `a b`. -/
theorem C3_roundtrip_amended_witness :
    isIdentName ("A".data) = true ∧ dquote ∉ ("a b".data) ∧ '\n' ∉ ("a b".data) ∧
      needs_quotes ("a b".data) = true ∧
      parse_export_line (format_export_line ("A".data) ("a b".data)) =
        some ("A".data, "a b".data) :=
  ⟨by decide, by decide, by decide, by decide,
    C3_roundtrip_amended ("A".data) ("a b".data) (by decide) (by decide) (by decide)
      (Or.inl (by decide))⟩

/-- Claim C5 counterexample: on `export A= x` the parser returns the value
`x`, not ` x`, because the code strips leading whitespace of the rest as well
as trailing whitespace. -/
theorem C5_value_cex :
    parse_export_line ("export A= x".data) = some ("A".data, "x".data) ∧
      parse_export_line ("export A= x".data) ≠ some ("A".data, " x".data) :=
  ⟨by decide, by decide⟩

/-- Claim C5 (amended): for every line of the form `export NAME=REST` or bare
`NAME=REST` (identifier name, optional leading whitespace, optional trailing
newline, no interior newline in REST), the parser returns the name together
with REST stripped of leading and trailing whitespace and then of exactly one
layer of surrounding quotes when it both begins and ends with the same quote
character. -/
theorem C5_value_amended (w n R : Str) (hw : ∀ c ∈ w, isPyWs c = true)
    (hn : isIdentName n = true) (hR : '\n' ∉ R) :
    parse_export_line (w ++ (exportWord ++ ' ' :: (n ++ '=' :: R))) =
        some (n, stripQuotes (pyStrip R)) ∧
      parse_export_line (w ++ (n ++ '=' :: R)) = some (n, stripQuotes (pyStrip R)) ∧
      parse_export_line (w ++ (exportWord ++ ' ' :: (n ++ '=' :: (R ++ ['\n'])))) =
        some (n, stripQuotes (pyStrip R)) ∧
      parse_export_line (w ++ (n ++ '=' :: (R ++ ['\n']))) =
        some (n, stripQuotes (pyStrip R)) := by
  refine ⟨?_, ?_, ?_, ?_⟩
  · rw [parse_line_export w n R hw hn]
    unfold processRest
    rw [takeNoNewline_of_no_nl hR]
    rfl
  · rw [parse_line_bare w n R hw hn]
    unfold processRest
    rw [takeNoNewline_of_no_nl hR]
    rfl
  · rw [parse_line_export w n (R ++ ['\n']) hw hn]
    unfold processRest
    rw [takeNoNewline_concat_nl hR]
    rfl
  · rw [parse_line_bare w n (R ++ ['\n']) hw hn]
    unfold processRest
    rw [takeNoNewline_concat_nl hR]
    rfl

theorem pyReadlines_cons_nl (s : Str) : pyReadlines ('\n' :: s) = ['\n'] :: pyReadlines s := by
  simp [pyReadlines]

theorem pyReadlines_cons {c : Char} (hc : c ≠ '\n') (s : Str) :
    pyReadlines (c :: s) =
      match pyReadlines s with
      | [] => [[c]]
      | l :: ls => (c :: l) :: ls := by
  rw [pyReadlines, if_neg hc]

theorem pyReadlines_nl_block {b : Str} (hb : '\n' ∉ b) (s : Str) :
    pyReadlines ((b ++ ['\n']) ++ s) = (b ++ ['\n']) :: pyReadlines s := by
  induction b with
  | nil => simpa using pyReadlines_cons_nl s
  | cons c b ih =>
    have hc : c ≠ '\n' := fun h => hb (h ▸ List.mem_cons_self c b)
    have hb' : '\n' ∉ b := fun h => hb (List.mem_cons_of_mem _ h)
    rw [show ((c :: b) ++ ['\n']) ++ s = c :: ((b ++ ['\n']) ++ s) by simp,
      pyReadlines_cons hc, ih hb']
    rfl

theorem pyReadlines_no_nl {b : Str} (hb : '\n' ∉ b) (hne : b ≠ []) :
    pyReadlines b = [b] := by
  induction b with
  | nil => exact absurd rfl hne
  | cons c b ih =>
    have hc : c ≠ '\n' := fun h => hb (h ▸ List.mem_cons_self c b)
    have hb' : '\n' ∉ b := fun h => hb (List.mem_cons_of_mem _ h)
    cases hbe : b with
    | nil => subst hbe; rw [pyReadlines_cons hc]; rfl
    | cons d t =>
      subst hbe
      rw [pyReadlines_cons hc, ih hb' (by simp)]

theorem properLine_cases {m : Str} (h : properLine m) :
    (∃ b, m = b ++ ['\n'] ∧ '\n' ∉ b) ∨ ('\n' ∉ m ∧ m ≠ []) := by
  obtain ⟨hne, hnl⟩ := h
  cases hl : m.getLast? with
  | none => exact absurd (List.getLast?_eq_none_iff.mp hl) hne
  | some a =>
    have hdec : m.dropLast ++ [a] = m := List.dropLast_append_getLast? a hl
    by_cases ha : a = '\n'
    · subst ha
      exact Or.inl ⟨m.dropLast, hdec.symm, hnl⟩
    · refine Or.inr ⟨?_, hne⟩
      intro hm
      rw [← hdec] at hm
      rcases List.mem_append.mp hm with hm | hm
      · exact hnl hm
      · simp only [List.mem_singleton] at hm
        exact ha hm.symm

theorem pyReadlines_flatten {ms : List Str} (h : ProperLines ms) :
    pyReadlines ms.flatten = ms := by
  induction ms with
  | nil => rfl
  | cons m ms ih =>
    obtain ⟨hm, hlast, hrest⟩ := h
    cases ms with
    | nil =>
      rcases properLine_cases hm with ⟨b, rfl, hb⟩ | ⟨hnl, hne⟩
      · simpa using pyReadlines_nl_block hb []
      · simpa using pyReadlines_no_nl hnl hne
    | cons m2 ms2 =>
      rcases hlast with hlast | hlast
      · exact absurd hlast (by simp)
      · obtain ⟨b, rfl, hb⟩ : ∃ b, m = b ++ ['\n'] ∧ '\n' ∉ b := by
          rcases properLine_cases hm with ⟨b, rfl, hb⟩ | ⟨hnl, hne⟩
          · exact ⟨b, rfl, hb⟩
          · exact absurd (List.mem_of_getLast?_eq_some hlast) hnl
        rw [List.flatten_cons, pyReadlines_nl_block hb, ih hrest]

theorem ProperLines_pyReadlines (s : Str) : ProperLines (pyReadlines s) := by
  induction s with
  | nil => trivial
  | cons c s ih =>
    by_cases hc : c = '\n'
    · subst hc
      rw [pyReadlines_cons_nl]
      refine ⟨⟨by simp, by simp⟩, Or.inr rfl, ih⟩
    · rw [pyReadlines_cons hc]
      cases hR : pyReadlines s with
      | nil => exact ⟨⟨by simp, by simp⟩, Or.inl rfl, trivial⟩
      | cons l ls =>
        rw [hR] at ih
        obtain ⟨⟨hlne, hlnl⟩, hlast, hrest⟩ := ih
        refine ⟨⟨by simp, ?_⟩, ?_, hrest⟩
        · cases l with
          | nil => exact absurd rfl hlne
          | cons d t =>
            rw [List.dropLast_cons₂]
            intro hm
            rcases List.mem_cons.mp hm with hm | hm
            · exact hc hm.symm
            · exact hlnl hm
        · rcases hlast with rfl | hlast
          · exact Or.inl rfl
          · refine Or.inr ?_
            cases l with
            | nil => exact absurd rfl hlne
            | cons d t => rw [List.getLast?_cons_cons]; rw [List.getLast?_cons] at hlast ⊢; exact hlast

theorem AllNlLines_append {xs ys : List Str} (hx : AllNlLines xs) (hy : AllNlLines ys) :
    AllNlLines (xs ++ ys) := by
  induction xs with
  | nil => simpa using hy
  | cons m ms ih =>
    obtain ⟨h1, h2, h3⟩ := hx
    exact ⟨h1, h2, ih h3⟩

theorem ProperLines_of_allNl_append {xs ys : List Str} (hx : AllNlLines xs)
    (hy : ProperLines ys) : ProperLines (xs ++ ys) := by
  induction xs with
  | nil => simpa using hy
  | cons m ms ih =>
    obtain ⟨h1, h2, h3⟩ := hx
    refine ⟨h1, ?_, ih h3⟩
    exact Or.inr h2

theorem ProperLines_concat_parts {xs : List Str} {m : Str} (h : ProperLines (xs ++ [m])) :
    AllNlLines xs ∧ properLine m := by
  induction xs with
  | nil => exact ⟨trivial, h.1⟩
  | cons x xs ih =>
    obtain ⟨h1, h2, h3⟩ := h
    have := ih h3
    refine ⟨⟨h1, ?_, this.1⟩, this.2⟩
    rcases h2 with h2 | h2
    · exact absurd h2 (by simp)
    · exact h2

theorem tryBare_append_nl {x : Str} (hx : '\n' ∉ x) : tryBare (x ++ ['\n']) = tryBare x := by
  cases x with
  | nil => decide
  | cons c t =>
    have hct : '\n' ∉ t := fun m => hx (List.mem_cons_of_mem _ m)
    rw [show (c :: t) ++ ['\n'] = c :: (t ++ ['\n']) from rfl, tryBare_cons, tryBare_cons]
    by_cases hc : isIdentStart c = true
    · rw [if_pos hc, if_pos hc]
      cases hdw : (c :: t).dropWhile isIdentChar with
      | nil =>
        have h1 : (c :: (t ++ ['\n'])).dropWhile isIdentChar = ['\n'] := by
          rw [show c :: (t ++ ['\n']) = (c :: t) ++ ['\n'] from rfl, List.dropWhile_append, hdw]
          simp
          decide
        rw [h1]
        rfl
      | cons d ds =>
        have h1 : (c :: (t ++ ['\n'])).dropWhile isIdentChar = d :: (ds ++ ['\n']) := by
          rw [show c :: (t ++ ['\n']) = (c :: t) ++ ['\n'] from rfl, List.dropWhile_append, hdw]
          simp
        have hds : '\n' ∉ ds := by
          intro m
          have : '\n' ∈ (c :: t).dropWhile isIdentChar := by
            rw [hdw]; exact List.mem_cons_of_mem _ m
          exact hx ((List.dropWhile_sublist isIdentChar).subset this)
        have htwlen : ¬(((c :: t).takeWhile isIdentChar).length = (c :: t).length) := by
          intro heq
          have hsplit := List.takeWhile_append_dropWhile isIdentChar (c :: t)
          have hl := congrArg List.length hsplit
          rw [List.length_append, hdw, heq] at hl
          simp at hl
        have h2 : (c :: (t ++ ['\n'])).takeWhile isIdentChar =
            (c :: t).takeWhile isIdentChar := by
          rw [show c :: (t ++ ['\n']) = (c :: t) ++ ['\n'] from rfl, List.takeWhile_append,
            if_neg htwlen]
        rw [h1, h2]
        by_cases hd : d = '='
        · subst hd
          have h3 : processRest (ds ++ ['\n']) = processRest ds := by
            unfold processRest
            rw [takeNoNewline_concat_nl hds, takeNoNewline_of_no_nl hds]
          show (processRest (ds ++ ['\n'])).map _ = (processRest ds).map _
          rw [h3]
        · split
          · next r heq =>
              exfalso
              injection heq with h _
              exact hd h
          · split
            · next r heq =>
                exfalso
                injection heq with h _
                exact hd h
            · rfl
    · rw [if_neg hc, if_neg hc]

theorem tryExportForm_append_nl {x : Str} (hx : '\n' ∉ x) :
    tryExportForm (x ++ ['\n']) = tryExportForm x := by
  unfold tryExportForm
  rcases Nat.lt_or_ge x.length 6 with hlen | hlen
  · have h1 : (x ++ ['\n']).take 6 = x ++ ['\n'] :=
      List.take_of_length_le (by simp; omega)
    have h2 : x.take 6 = x := List.take_of_length_le (by omega)
    have hne1 : ¬((x ++ ['\n']).take 6 = exportWord) := by
      rw [h1]
      intro he
      have : '\n' ∈ exportWord := he ▸ List.mem_append_right x (List.mem_singleton.mpr rfl)
      exact absurd this (by decide)
    have hne2 : ¬(x.take 6 = exportWord) := by
      rw [h2]
      intro he
      have : x.length = 6 := by rw [he]; rfl
      omega
    rw [if_neg hne1, if_neg hne2]
  · have h1 : (x ++ ['\n']).take 6 = x.take 6 := by
      rw [List.take_append_eq_append_take, show 6 - x.length = 0 by omega]
      simp
    rw [h1]
    by_cases h6 : x.take 6 = exportWord
    · rw [if_pos h6, if_pos h6]
      have h2 : (x ++ ['\n']).drop 6 = x.drop 6 ++ ['\n'] := by
        rw [List.drop_append_eq_append_drop, show 6 - x.length = 0 by omega]
        rfl
      rw [h2]
      cases hd : x.drop 6 with
      | nil => rfl
      | cons a u =>
        have hau : '\n' ∉ a :: u := by
          rw [← hd]
          intro m
          exact hx (List.drop_subset 6 x m)
        show (if isPyWs a then tryBare ((u ++ ['\n']).dropWhile isPyWs) else none) =
          (if isPyWs a then tryBare (u.dropWhile isPyWs) else none)
        by_cases ha : isPyWs a = true
        · rw [if_pos ha, if_pos ha]
          cases hdu : u.dropWhile isPyWs with
          | nil =>
            have : (u ++ ['\n']).dropWhile isPyWs = [] := by
              rw [List.dropWhile_append, hdu]
              simp [isPyWs]
            rw [this]
          | cons e es =>
            have h3 : (u ++ ['\n']).dropWhile isPyWs = (e :: es) ++ ['\n'] := by
              rw [List.dropWhile_append, hdu]
              simp
            have hes : '\n' ∉ e :: es := by
              rw [← hdu]
              intro m
              exact hau (List.mem_cons_of_mem a ((List.dropWhile_sublist isPyWs).subset m))
            rw [h3, tryBare_append_nl hes]
        · rw [if_neg ha, if_neg ha]
    · rw [if_neg h6, if_neg h6]

theorem parse_append_nl {b : Str} (hb : '\n' ∉ b) :
    parse_export_line (b ++ ['\n']) = parse_export_line b := by
  unfold parse_export_line
  cases hdw : b.dropWhile isPyWs with
  | nil =>
    have h1 : (b ++ ['\n']).dropWhile isPyWs = [] := by
      rw [List.dropWhile_append, hdw]
      simp [isPyWs]
    rw [h1]
  | cons c t =>
    have h1 : (b ++ ['\n']).dropWhile isPyWs = (c :: t) ++ ['\n'] := by
      rw [List.dropWhile_append, hdw]
      simp
    have hct : '\n' ∉ c :: t := by
      rw [← hdw]
      intro m
      exact hb ((List.dropWhile_sublist isPyWs).subset m)
    rw [h1, tryExportForm_append_nl hct, tryBare_append_nl hct]

theorem matchesName_append_nl {b n : Str} (hb : '\n' ∉ b) :
    matchesName (b ++ ['\n']) n = matchesName b n := by
  unfold matchesName
  rw [parse_append_nl hb]

theorem lookup_map_replace_self {β : Type} (d : List (Str × β)) (k : Str) (v : β) :
    List.lookup k (d.map (fun p => if p.1 = k then (k, v) else p)) =
      if (List.lookup k d).isSome then some v else none := by
  induction d with
  | nil => simp
  | cons p d ih =>
    obtain ⟨a, b⟩ := p
    by_cases hp : a = k
    · subst hp
      rw [List.map_cons, if_pos rfl]
      simp [List.lookup_cons]
    · rw [List.map_cons, if_neg (by simpa using hp)]
      rw [List.lookup_cons, List.lookup_cons]
      have : (k == a) = false := by simpa using Ne.symm hp
      rw [this, ih]

theorem lookup_map_replace_ne {β : Type} (d : List (Str × β)) {k k' : Str} (h : k' ≠ k)
    (v : β) :
    List.lookup k' (d.map (fun p => if p.1 = k then (k, v) else p)) = List.lookup k' d := by
  induction d with
  | nil => rfl
  | cons p d ih =>
    obtain ⟨a, b⟩ := p
    by_cases hp : a = k
    · subst hp
      rw [List.map_cons, if_pos rfl]
      rw [List.lookup_cons, List.lookup_cons]
      have : (k' == a) = false := by simpa using h
      rw [this, ih]
    · rw [List.map_cons, if_neg (by simpa using hp)]
      rw [List.lookup_cons, List.lookup_cons]
      cases hk : (k' == a) with
      | true => rfl
      | false => rw [ih]

theorem dictSet_of_mem {β : Type} (D : List (Str × β)) (k : Str) (w : β)
    (h : (List.lookup k D).isSome = true) :
    dictSet D k w = D.map (fun p => if p.1 = k then (k, w) else p) := by
  unfold dictSet
  rw [if_pos h]

theorem dictSet_of_not_mem {β : Type} (D : List (Str × β)) (k : Str) (w : β)
    (h : List.lookup k D = none) :
    dictSet D k w = D ++ [(k, w)] := by
  unfold dictSet
  rw [h]
  rfl

theorem lookup_dictSet_self {β : Type} (d : List (Str × β)) (k : Str) (v : β) :
    List.lookup k (dictSet d k v) = some v := by
  by_cases hs : (List.lookup k d).isSome = true
  · rw [dictSet_of_mem d k v hs, lookup_map_replace_self, if_pos hs]
  · have h0 : List.lookup k d = none := by
      cases ho : List.lookup k d
      · rfl
      · rw [ho] at hs
        exact absurd rfl hs
    rw [dictSet_of_not_mem d k v h0, List.lookup_append, h0]
    simp [List.lookup_cons]

theorem lookup_dictSet_ne {β : Type} (d : List (Str × β)) {k k' : Str} (h : k' ≠ k) (v : β) :
    List.lookup k' (dictSet d k v) = List.lookup k' d := by
  by_cases hs : (List.lookup k d).isSome = true
  · rw [dictSet_of_mem d k v hs, lookup_map_replace_ne d h]
  · have h0 : List.lookup k d = none := by
      cases ho : List.lookup k d
      · rfl
      · rw [ho] at hs
        exact absurd rfl hs
    rw [dictSet_of_not_mem d k v h0, List.lookup_append]
    have : List.lookup k' [(k, v)] = none := by
      rw [List.lookup_cons]
      have : (k' == k) = false := by simpa using h
      rw [this]
      rfl
    rw [this]
    cases List.lookup k' d <;> rfl

theorem dictSet_dictSet {β : Type} (d : List (Str × β)) (k : Str) (v w : β) :
    dictSet (dictSet d k v) k w = dictSet d k w := by
  have hks : (List.lookup k (dictSet d k v)).isSome = true := by
    rw [lookup_dictSet_self]
    rfl
  rw [dictSet_of_mem (dictSet d k v) k w hks]
  by_cases hs : (List.lookup k d).isSome = true
  · rw [dictSet_of_mem d k v hs, dictSet_of_mem d k w hs, List.map_map]
    refine List.map_congr_left ?_
    intro p _
    by_cases hp : p.1 = k
    · simp [Function.comp, hp]
    · simp [Function.comp, hp]
  · have h0 : List.lookup k d = none := by
      cases ho : List.lookup k d
      · rfl
      · rw [ho] at hs
        exact absurd rfl hs
    rw [dictSet_of_not_mem d k v h0, dictSet_of_not_mem d k w h0, List.map_append]
    have h1 : (d.map (fun p => if p.1 = k then (k, w) else p)) = d := by
      refine (List.map_congr_left ?_).trans (List.map_id d)
      intro p hp
      have hpk : ¬(p.1 = k) := by
        intro he
        have : (List.lookup k d).isSome = true := by
          rw [List.lookup_isSome_iff]
          exact ⟨p, hp, by simpa using he.symm⟩
        exact hs this
      rw [if_neg hpk]
      rfl
    rw [h1]
    simp

theorem format_concat (n v : Str) :
    format_export_line n v = (exportWord ++ ' ' :: (n ++ '=' :: quoteVal v)) ++ ['\n'] := by
  rw [format_shape]
  simp

theorem format_body_no_nl (n v : Str) (hn : isIdentName n = true) (hv : '\n' ∉ v) :
    '\n' ∉ (exportWord ++ ' ' :: (n ++ '=' :: quoteVal v)) := by
  intro hm
  rcases List.mem_append.mp hm with hm | hm
  · exact absurd hm (by decide)
  · rcases List.mem_cons.mp hm with he | hm
    · exact absurd he (by decide)
    · rcases List.mem_append.mp hm with hm | hm
      · exact identChar_ne_nl (identName_all hn _ hm) rfl
      · rcases List.mem_cons.mp hm with he | hm
        · exact absurd he (by decide)
        · exact hv (nl_mem_quoteVal_iff.mp hm)

theorem properLine_format (n v : Str) (hn : isIdentName n = true) (hv : '\n' ∉ v) :
    properLine (format_export_line n v) ∧ (format_export_line n v).getLast? = some '\n' := by
  rw [format_concat]
  refine ⟨⟨by simp, ?_⟩, List.getLast?_concat _⟩
  rw [List.dropLast_concat]
  exact format_body_no_nl n v hn hv

theorem ProperLines_map {ls : List Str} (h : ProperLines ls) {f : Str → Str}
    (hf : ∀ m, f m = m ∨ (properLine (f m) ∧ (f m).getLast? = some '\n')) :
    ProperLines (ls.map f) := by
  induction ls with
  | nil => trivial
  | cons m ms ih =>
    obtain ⟨h1, h2, h3⟩ := h
    refine ⟨?_, ?_, ih h3⟩
    · rcases hf m with he | ⟨hp, _⟩
      · rw [he]; exact h1
      · exact hp
    · rcases h2 with rfl | h2
      · exact Or.inl (by simp)
      · refine Or.inr ?_
        rcases hf m with he | ⟨_, hl⟩
        · rw [he]; exact h2
        · exact hl

theorem lastEndsNl_concat (xs : List Str) (m : Str) :
    lastEndsNl (xs ++ [m]) = decide (m.getLast? = some '\n') := by
  unfold lastEndsNl
  rw [List.getLast?_concat]

theorem allNl_of_lastEndsNl {ls : List Str} (h : ProperLines ls)
    (hl : lastEndsNl ls = true) : AllNlLines ls := by
  rcases List.eq_nil_or_concat ls with rfl | ⟨xs, m, hsm⟩
  · trivial
  · rw [List.concat_eq_append] at hsm
    subst hsm
    obtain ⟨hxs, hm⟩ := ProperLines_concat_parts h
    rw [lastEndsNl_concat] at hl
    exact AllNlLines_append hxs ⟨hm, by simpa using hl, trivial⟩

theorem no_nl_of_properLine_not_endNl {m : Str} (hm : properLine m)
    (h : ¬m.getLast? = some '\n') : '\n' ∉ m := by
  rcases properLine_cases hm with ⟨b, rfl, _⟩ | ⟨hnl, _⟩
  · exact absurd (List.getLast?_concat b) h
  · exact hnl

theorem flatten_updatedLines (ls : List Str) (n v : Str) :
    (updatedLines ls n v).flatten = (updateLines ls n v).flatten := by
  unfold updatedLines
  by_cases hany : ls.any (fun l => matchesName l n) = true
  · rw [if_pos hany, updateLines_of_match ls n v hany]
  · have hany' : ls.any (fun l => matchesName l n) = false := by simpa using hany
    rw [if_neg hany, updateLines_of_no_match ls n v hany']
    by_cases hnil : ls = []
    · subst hnil
      simp
    · rw [if_neg hnil]
      by_cases hlast : lastEndsNl ls = true
      · rw [if_pos hlast, if_neg (by simp [hlast])]
      · have hlast' : lastEndsNl ls = false := by simpa using hlast
        rw [if_neg hlast, if_pos ⟨hnil, hlast'⟩]
        obtain ⟨xs, m, hsm⟩ : ∃ xs m, ls = xs ++ [m] := by
          rcases List.eq_nil_or_concat ls with h | ⟨xs, m, h⟩
          · exact absurd h hnil
          · exact ⟨xs, m, by simpa using h⟩
        subst hsm
        rw [List.dropLast_concat, List.getLast?_concat]
        simp

theorem ProperLines_updatedLines {ls : List Str} (hPL : ProperLines ls) (n v : Str)
    (hn : isIdentName n = true) (hv : '\n' ∉ v) :
    ProperLines (updatedLines ls n v) := by
  obtain ⟨hpf, hef⟩ := properLine_format n v hn hv
  unfold updatedLines
  by_cases hany : ls.any (fun l => matchesName l n) = true
  · rw [if_pos hany]
    refine ProperLines_map hPL ?_
    intro m
    by_cases hm : matchesName m n = true
    · rw [if_pos hm]
      exact Or.inr ⟨hpf, hef⟩
    · rw [if_neg hm]
      exact Or.inl rfl
  · rw [if_neg hany]
    by_cases hnil : ls = []
    · rw [if_pos hnil]
      exact ⟨hpf, Or.inl rfl, trivial⟩
    · rw [if_neg hnil]
      by_cases hlast : lastEndsNl ls = true
      · rw [if_pos hlast]
        exact ProperLines_of_allNl_append (allNl_of_lastEndsNl hPL hlast)
          ⟨hpf, Or.inl rfl, trivial⟩
      · rw [if_neg hlast]
        obtain ⟨xs, m, hsm⟩ : ∃ xs m, ls = xs ++ [m] := by
          rcases List.eq_nil_or_concat ls with h | ⟨xs, m, h⟩
          · exact absurd h hnil
          · exact ⟨xs, m, by simpa using h⟩
        subst hsm
        rw [List.dropLast_concat, List.getLast?_concat]
        obtain ⟨hxs, hm⟩ := ProperLines_concat_parts hPL
        have hmnl : '\n' ∉ m := by
          refine no_nl_of_properLine_not_endNl hm ?_
          intro he
          rw [lastEndsNl_concat, he] at hlast
          exact hlast (by simp)
        refine ProperLines_of_allNl_append hxs ?_
        refine ⟨⟨by simp, ?_⟩, Or.inr ?_, hpf, Or.inl rfl, trivial⟩
        · show '\n' ∉ ((some m).getD [] ++ ['\n']).dropLast
          rw [Option.getD_some, List.dropLast_concat]
          exact hmnl
        · show ((some m).getD [] ++ ['\n']).getLast? = some '\n'
          rw [Option.getD_some, List.getLast?_concat]

theorem readlines_update (c n v : Str) (hn : isIdentName n = true) (hv : '\n' ∉ v) :
    pyReadlines (updateFileContent c n v) = updatedLines (pyReadlines c) n v := by
  unfold updateFileContent
  rw [← flatten_updatedLines]
  exact pyReadlines_flatten (ProperLines_updatedLines (ProperLines_pyReadlines c) n v hn hv)

theorem updateLines_again {ls : List Str} (hPL : ProperLines ls) (n v : Str)
    (hn : isIdentName n = true) (hv : '\n' ∉ v) :
    updateLines (updatedLines ls n v) n v = updatedLines ls n v := by
  have hmf : matchesName (format_export_line n v) n = true := matchesName_format n v hn hv
  unfold updatedLines
  by_cases hany : ls.any (fun l => matchesName l n) = true
  · rw [if_pos hany]
    obtain ⟨l0, hl0, hml0⟩ := List.any_eq_true.mp hany
    have hany2 : (ls.map (fun l => if matchesName l n then format_export_line n v else l)).any
        (fun l => matchesName l n) = true := by
      refine List.any_eq_true.mpr ⟨format_export_line n v, ?_, hmf⟩
      exact List.mem_map.mpr ⟨l0, hl0, by rw [if_pos hml0]⟩
    rw [updateLines_of_match _ n v hany2, List.map_map]
    refine List.map_congr_left ?_
    intro l _
    by_cases hm : matchesName l n = true
    · simp [Function.comp, hm, hmf]
    · simp [Function.comp, hm]
  · have hnomatch : ∀ l ∈ ls, matchesName l n = false := by
      intro l hl
      have := List.any_eq_false.mp (by simpa using hany)
      simpa using this l hl
    rw [if_neg hany]
    by_cases hnil : ls = []
    · rw [if_pos hnil]
      rw [updateLines_of_match [format_export_line n v] n v (by simp [hmf])]
      simp [hmf]
    · rw [if_neg hnil]
      by_cases hlast : lastEndsNl ls = true
      · rw [if_pos hlast]
        have hany2 : (ls ++ [format_export_line n v]).any (fun l => matchesName l n) = true := by
          simp [hmf]
        rw [updateLines_of_match _ n v hany2, List.map_append]
        have h1 : ls.map (fun l => if matchesName l n then format_export_line n v else l)
            = ls :=
          (List.map_congr_left (fun l hl => by rw [hnomatch l hl]; simp)).trans (List.map_id ls)
        rw [h1]
        simp [hmf]
      · rw [if_neg hlast]
        obtain ⟨xs, m, hsm⟩ : ∃ xs m, ls = xs ++ [m] := by
          rcases List.eq_nil_or_concat ls with h | ⟨xs, m, h⟩
          · exact absurd h hnil
          · exact ⟨xs, m, by simpa using h⟩
        subst hsm
        rw [List.dropLast_concat, List.getLast?_concat]
        obtain ⟨hxs, hm⟩ := ProperLines_concat_parts hPL
        have hmnl : '\n' ∉ m := by
          refine no_nl_of_properLine_not_endNl hm ?_
          intro he
          rw [lastEndsNl_concat, he] at hlast
          exact hlast (by simp)
        have hmm : matchesName (m ++ ['\n']) n = false := by
          rw [matchesName_append_nl hmnl]
          exact hnomatch m (List.mem_append_right xs (List.mem_singleton.mpr rfl))
        have hany2 : (xs ++ [(some m).getD [] ++ ['\n'], format_export_line n v]).any
            (fun l => matchesName l n) = true := by
          refine List.any_eq_true.mpr ⟨format_export_line n v, ?_, hmf⟩
          refine List.mem_append_right xs ?_
          simp
        rw [updateLines_of_match _ n v hany2, List.map_append]
        have h1 : xs.map (fun l => if matchesName l n then format_export_line n v else l)
            = xs := by
          refine (List.map_congr_left (fun l hl => ?_)).trans (List.map_id xs)
          rw [hnomatch l (List.mem_append_left [m] hl)]
          simp
        rw [h1]
        simp [hmm, hmf]

theorem updateFileContent_idem (c n v : Str) (hn : isIdentName n = true) (hv : '\n' ∉ v) :
    updateFileContent (updateFileContent c n v) n v = updateFileContent c n v := by
  show (updateLines (pyReadlines (updateFileContent c n v)) n v).flatten = _
  rw [readlines_update c n v hn hv,
    updateLines_again (ProperLines_pyReadlines c) n v hn hv, flatten_updatedLines]
  rfl

theorem update_step (st : SVState) (p n v : Str) :
    update_variable_in_file false st p n v =
      (true, { st with
        fs := dictSet st.fs p (updateFileContent ((List.lookup p st.fs).getD []) n v) }) :=
  rfl

/-- Claim C7 counterexample: with a value containing a newline (on an
initially empty file), the second call of `update_variable_in_file` changes
the file again, because the multi-line formatted text re-reads as several
lines of which only the first is recognised and rewritten. -/
theorem C7_update_idem_cex :
    (update_variable_in_file false
        (update_variable_in_file false stEmpty fC7 ("A".data) ("a\nb".data)).2
        fC7 ("A".data) ("a\nb".data)).2
      ≠ (update_variable_in_file false stEmpty fC7 ("A".data) ("a\nb".data)).2 := by
  decide

/-- Claim C7 (amended): for every state and file, every identifier-grammar
name and every newline-free value, applying `update_variable_in_file` twice
in a row (not in dry-run) leaves the file identical after the first and the
second call, and the second call reports success. -/
theorem C7_update_idempotent (st : SVState) (p n v : Str)
    (hn : isIdentName n = true) (hv : '\n' ∉ v) :
    update_variable_in_file false (update_variable_in_file false st p n v).2 p n v =
      (true, (update_variable_in_file false st p n v).2) := by
  rw [update_step st p n v]
  rw [update_step]
  simp only [lookup_dictSet_self, Option.getD_some,
    updateFileContent_idem _ n v hn hv, dictSet_dictSet]

/-- Witness for the amended C7 at an empty file, name `A`, value `a`. -/
theorem C7_update_idempotent_witness :
    isIdentName ("A".data) = true ∧ '\n' ∉ ("a".data) ∧
      update_variable_in_file false
          (update_variable_in_file false stEmpty fC7 ("A".data) ("a".data)).2
          fC7 ("A".data) ("a".data) =
        (true, (update_variable_in_file false stEmpty fC7 ("A".data) ("a".data)).2) :=
  ⟨by decide, by decide,
    C7_update_idempotent stEmpty fC7 ("A".data) ("a".data) (by decide) (by decide)⟩

theorem update_eq (dry : Bool) (st : SVState) (p n v : Str) :
    update_variable_in_file dry st p n v =
      (true,
        if dry then st
        else { st with
          fs := dictSet st.fs p (updateFileContent ((List.lookup p st.fs).getD []) n v) }) := by
  cases dry <;> rfl

theorem remove_eq (dry : Bool) (st : SVState) (p n : Str) :
    remove_variable_from_file dry st p n =
      (true,
        if dry then st
        else { st with
          fs := dictSet st.fs p (removeFileContent ((List.lookup p st.fs).getD []) n) }) := by
  cases dry <;> rfl

theorem setApply_unfold (dry : Bool) (n v f : Str) (fs : List Str) (st : SVState) :
    setApply dry n v (f :: fs) st =
      setApply dry n v fs (update_variable_in_file dry st f n v).2 := by
  unfold setApply
  rw [List.foldl_cons, update_eq]
  rfl

theorem removeApply_unfold (dry : Bool) (n f : Str) (fs : List Str) (st : SVState) :
    removeApply dry n (f :: fs) st =
      removeApply dry n fs (remove_variable_from_file dry st f n).2 := by
  unfold removeApply
  rw [List.foldl_cons, remove_eq]
  rfl

theorem setApply_eq (dry : Bool) (n v : Str) :
    ∀ (files : List Str) (st : SVState),
      setApply dry n v files st = (true, { st with fs := applyFsOnly dry n v files st.fs }) := by
  intro files
  induction files with
  | nil => intro st; rfl
  | cons f fs ih =>
    intro st
    rw [setApply_unfold, ih, update_eq]
    cases dry
    · rfl
    · rfl

theorem removeApply_eq (dry : Bool) (n : Str) :
    ∀ (files : List Str) (st : SVState),
      removeApply dry n files st = (true, { st with fs := removeFsOnly dry n files st.fs }) := by
  intro files
  induction files with
  | nil => intro st; rfl
  | cons f fs ih =>
    intro st
    rw [removeApply_unfold, ih, remove_eq]
    cases dry
    · rfl
    · rfl

theorem create_backup_fs (backupEnabled dry zipOk : Bool) (st : SVState) (files : List Str)
    (msg : Option Str) : (create_backup backupEnabled dry zipOk st files msg).2.fs = st.fs := by
  unfold create_backup
  by_cases h1 : (!backupEnabled || dry) = true
  · rw [if_pos h1]
  · rw [if_neg h1]
    by_cases h2 : (!zipOk) = true
    · rw [if_pos h2]
    · rw [if_neg h2]

/-- Claim C8: removing a name that no existing configuration file of any
target shell defines returns success and leaves the whole state unchanged (no
file is written, no backup is taken). -/
theorem C8_remove_noop (backupEnabled dry confirms zipOk : Bool) (st : SVState) (n : Str)
    (shells : List Shell) (skipConfirmation : Bool)
    (h : ∀ sh ∈ shells, ∀ f ∈ find_existing_config_files st sh,
      List.lookup n (get_variables_from_file st f) = none) :
    remove_variable backupEnabled dry confirms zipOk st n shells skipConfirmation =
      (true, st) := by
  have key : ∀ (ss : List Shell) (acc : List Str),
      (∀ sh ∈ ss, ∀ f ∈ find_existing_config_files st sh,
        List.lookup n (get_variables_from_file st f) = none) →
      ss.foldl
        (fun acc sh =>
          acc ++ (find_existing_config_files st sh).filter
            (fun f => (List.lookup n (get_variables_from_file st f)).isSome))
        acc = acc := by
    intro ss
    induction ss with
    | nil => intro acc _; rfl
    | cons sh rest ih =>
      intro acc hh
      rw [List.foldl_cons]
      have hf : (find_existing_config_files st sh).filter
          (fun f => (List.lookup n (get_variables_from_file st f)).isSome) = [] := by
        rw [List.filter_eq_nil_iff]
        intro f hfm
        rw [hh sh (List.mem_cons_self _ _) f hfm]
        simp
      rw [hf, List.append_nil]
      exact ih acc (fun s hs => hh s (List.mem_cons_of_mem _ hs))
  have hfiles : removeCollect st n shells = [] := key shells [] h
  unfold remove_variable
  dsimp only
  rw [hfiles, if_pos rfl]

/-- Witness for C8: removing `A` when the only existing file defines only `B`. -/
theorem C8_remove_noop_witness :
    (∀ sh ∈ [Shell.bash], ∀ f ∈ find_existing_config_files stC8 sh,
        List.lookup ("A".data) (get_variables_from_file stC8 f) = none) ∧
      remove_variable true false true true stC8 ("A".data) [Shell.bash] true =
        (true, stC8) :=
  ⟨by decide, C8_remove_noop true false true true stC8 ("A".data) [Shell.bash] true (by decide)⟩

/-- Claim C10: in dry-run mode `restore_backup` returns success immediately
for every backup id, whether or not that backup exists, without resolving the
archive, computing the pre-restore snapshot set, or touching any file. -/
theorem C10_restore_dry_run (backupEnabled zipOk : Bool) (st : SVState) (backupId : Str) :
    restore_backup backupEnabled true zipOk st backupId = (true, st) := by
  unfold restore_backup
  rw [if_pos rfl]

/-- Claim C9: `create_backup` swallows archive-build failures and returns
none, and the mutation paths of `set_variable` and `remove_variable` ignore
whether the pre-change snapshot was created: their reported result and their
effect on the configuration files are identical whether the snapshot succeeds
or fails. -/
theorem C9_mutation_ignores_snapshot :
    (∀ (backupEnabled dry : Bool) (st : SVState) (files : List Str) (msg : Option Str),
        (create_backup backupEnabled dry false st files msg).1 = none) ∧
      (∀ (backupEnabled dry confirms : Bool) (st : SVState) (n v : Str)
          (shells : List Shell) (skip : Bool) (sp : Option Str) (z1 z2 : Bool),
        (set_variable backupEnabled dry confirms z1 st n v shells skip sp).1 =
            (set_variable backupEnabled dry confirms z2 st n v shells skip sp).1 ∧
          (set_variable backupEnabled dry confirms z1 st n v shells skip sp).2.fs =
            (set_variable backupEnabled dry confirms z2 st n v shells skip sp).2.fs) ∧
      (∀ (backupEnabled dry confirms : Bool) (st : SVState) (n : Str)
          (shells : List Shell) (skip : Bool) (z1 z2 : Bool),
        (remove_variable backupEnabled dry confirms z1 st n shells skip).1 =
            (remove_variable backupEnabled dry confirms z2 st n shells skip).1 ∧
          (remove_variable backupEnabled dry confirms z1 st n shells skip).2.fs =
            (remove_variable backupEnabled dry confirms z2 st n shells skip).2.fs) := by
  refine ⟨?_, ?_, ?_⟩
  · intro backupEnabled dry st files msg
    unfold create_backup
    by_cases h1 : (!backupEnabled || dry) = true
    · rw [if_pos h1]
    · rw [if_neg h1, if_pos (show (!false) = true from rfl)]
  · intro backupEnabled dry confirms st n v shells skip sp z1 z2
    unfold set_variable
    by_cases hval : (!pyValidName n) = true
    · rw [if_pos hval, if_pos hval]
      exact ⟨rfl, rfl⟩
    · rw [if_neg hval, if_neg hval]
      dsimp only
      have tail : ∀ (files : List Str) (st1 : SVState) (msg : Option Str),
          ((if ¬skip ∧ ¬dry ∧ ¬confirms then (false, st1)
            else setApply dry n v files
              (if backupEnabled ∧ ¬dry ∧ files ≠ [] then
                (create_backup backupEnabled dry z1 st1 files msg).2
              else st1)).1 =
           (if ¬skip ∧ ¬dry ∧ ¬confirms then (false, st1)
            else setApply dry n v files
              (if backupEnabled ∧ ¬dry ∧ files ≠ [] then
                (create_backup backupEnabled dry z2 st1 files msg).2
              else st1)).1) ∧
          ((if ¬skip ∧ ¬dry ∧ ¬confirms then (false, st1)
            else setApply dry n v files
              (if backupEnabled ∧ ¬dry ∧ files ≠ [] then
                (create_backup backupEnabled dry z1 st1 files msg).2
              else st1)).2.fs =
           (if ¬skip ∧ ¬dry ∧ ¬confirms then (false, st1)
            else setApply dry n v files
              (if backupEnabled ∧ ¬dry ∧ files ≠ [] then
                (create_backup backupEnabled dry z2 st1 files msg).2
              else st1)).2.fs) := by
        intro files st1 msg
        by_cases hc : ¬skip ∧ ¬dry ∧ ¬confirms
        · rw [if_pos hc, if_pos hc]
          exact ⟨rfl, rfl⟩
        · rw [if_neg hc, if_neg hc]
          by_cases hb : backupEnabled ∧ ¬dry ∧ files ≠ []
          · rw [if_pos hb, if_pos hb, setApply_eq, setApply_eq]
            refine ⟨rfl, ?_⟩
            show applyFsOnly dry n v files _ = applyFsOnly dry n v files _
            rw [create_backup_fs, create_backup_fs]
          · rw [if_neg hb, if_neg hb]
            exact ⟨rfl, rfl⟩
      cases sp with
      | some f =>
        dsimp only
        by_cases hex : fsExists st f = true
        · rw [if_pos hex]
          exact tail [f] st _
        · rw [if_neg hex]
          exact ⟨rfl, rfl⟩
      | none =>
        dsimp only
        exact tail _ _ _
  · intro backupEnabled dry confirms st n shells skip z1 z2
    unfold remove_variable
    dsimp only
    by_cases hf : removeCollect st n shells = []
    · rw [if_pos hf, if_pos hf]
      exact ⟨rfl, rfl⟩
    · rw [if_neg hf, if_neg hf]
      by_cases hc : ¬skip ∧ ¬dry ∧ ¬confirms
      · rw [if_pos hc, if_pos hc]
        exact ⟨rfl, rfl⟩
      · rw [if_neg hc, if_neg hc]
        by_cases hb : backupEnabled ∧ ¬dry
        · rw [if_pos hb, if_pos hb, removeApply_eq, removeApply_eq]
          refine ⟨rfl, ?_⟩
          show removeFsOnly dry n _ _ = removeFsOnly dry n _ _
          rw [create_backup_fs, create_backup_fs]
        · rw [if_neg hb, if_neg hb]
          exact ⟨rfl, rfl⟩

theorem lookup_dictUpdate {β : Type} (e : List (Str × β)) :
    ∀ (d : List (Str × β)) (k : Str),
      List.lookup k (dictUpdate d e) = (List.lookup k e.reverse).or (List.lookup k d) := by
  induction e with
  | nil => intro d k; simp [dictUpdate]
  | cons p e ih =>
    intro d k
    obtain ⟨a, b⟩ := p
    show List.lookup k (dictUpdate (dictSet d a b) e) = _
    rw [ih, List.reverse_cons, List.lookup_append]
    by_cases hk : k = a
    · subst hk
      rw [lookup_dictSet_self]
      have hone : List.lookup k [(k, b)] = some b := by simp [List.lookup_cons]
      rw [hone]
      cases List.lookup k e.reverse <;> rfl
    · rw [lookup_dictSet_ne d hk]
      have hone : List.lookup k [(a, b)] = none := by
        rw [List.lookup_cons]
        have : (k == a) = false := by simpa using hk
        rw [this]
        rfl
      rw [hone]
      cases List.lookup k e.reverse <;> rfl

theorem nodupKeys_dictSet {β : Type} {d : List (Str × β)} (h : NodupKeys d) (k : Str)
    (v : β) : NodupKeys (dictSet d k v) := by
  by_cases hs : (List.lookup k d).isSome = true
  · rw [dictSet_of_mem d k v hs]
    unfold NodupKeys at *
    rw [List.map_map]
    have he : (Prod.fst ∘ fun p => if p.1 = k then (k, v) else p) = fun (p : Str × β) => p.1 := by
      funext p
      by_cases hp : p.1 = k <;> simp [Function.comp, hp]
    rw [he]
    exact h
  · have h0 : List.lookup k d = none := by
      cases ho : List.lookup k d
      · rfl
      · rw [ho] at hs
        exact absurd rfl hs
    rw [dictSet_of_not_mem d k v h0]
    unfold NodupKeys at *
    rw [List.map_append]
    have hk : k ∉ d.map Prod.fst := by
      intro hm
      obtain ⟨p, hp, he⟩ := List.mem_map.mp hm
      have : (List.lookup k d).isSome = true :=
        List.lookup_isSome_iff.mpr ⟨p, hp, by simpa using he.symm⟩
      rw [h0] at this
      simp at this
    rw [List.nodup_append]
    refine ⟨h, List.nodup_singleton k, ?_⟩
    intro a ha hb
    simp only [List.map_cons, List.map_nil, List.mem_singleton] at hb
    subst hb
    exact hk ha

theorem nodupKeys_varsFold (lines : List Str) :
    ∀ d : List (Str × Str), NodupKeys d →
      NodupKeys (lines.foldl
        (fun d l =>
          match parse_export_line l with
          | some p => dictSet d p.1 p.2
          | none => d) d) := by
  induction lines with
  | nil => intro d h; exact h
  | cons l ls ih =>
    intro d h
    rw [List.foldl_cons]
    cases parse_export_line l with
    | none => exact ih d h
    | some p => exact ih _ (nodupKeys_dictSet h p.1 p.2)

theorem nodupKeys_get_vars (st : SVState) (p : Str) :
    NodupKeys (get_variables_from_file st p) := by
  have : NodupKeys ([] : List (Str × Str)) := List.nodup_nil
  exact nodupKeys_varsFold (read_config_file st p) [] this

theorem nodupKeys_dictUpdate {β : Type} (e : List (Str × β)) :
    ∀ d : List (Str × β), NodupKeys d → NodupKeys (dictUpdate d e) := by
  induction e with
  | nil => intro d h; exact h
  | cons p e ih =>
    intro d h
    exact ih _ (nodupKeys_dictSet h p.1 p.2)

theorem nodupKeys_shellVars (st : SVState) (sh : Shell) : NodupKeys (shellVars st sh) := by
  unfold shellVars
  generalize find_existing_config_files st sh = files
  have base : NodupKeys ([] : List (Str × Str)) := List.nodup_nil
  revert base
  generalize ([] : List (Str × Str)) = d
  intro base
  induction files generalizing d with
  | nil => exact base
  | cons f fs ih =>
    rw [List.foldl_cons]
    exact ih _ (nodupKeys_dictUpdate _ d base)

theorem lookup_reverse_of_nodup {β : Type} :
    ∀ {d : List (Str × β)}, NodupKeys d → ∀ k, List.lookup k d.reverse = List.lookup k d := by
  intro d
  induction d with
  | nil => intro _ k; rfl
  | cons p d ih =>
    intro h k
    obtain ⟨a, b⟩ := p
    have hnd : NodupKeys d := (List.nodup_cons.mp h).2
    have hna : a ∉ d.map Prod.fst := (List.nodup_cons.mp h).1
    rw [List.reverse_cons, List.lookup_append, ih hnd k]
    by_cases hk : k = a
    · subst hk
      have h0 : List.lookup k d = none := by
        rw [List.lookup_eq_none_iff]
        intro q hq
        have : q.1 ≠ k := fun he => hna (List.mem_map.mpr ⟨q, hq, he⟩)
        simpa using Ne.symm this
      rw [h0]
      simp [List.lookup_cons, h0]
    · have hbeq : (k == a) = false := by simpa using hk
      rw [show List.lookup k [(a, b)] = none by rw [List.lookup_cons, hbeq]; rfl]
      rw [show List.lookup k ((a, b) :: d) = List.lookup k d by rw [List.lookup_cons, hbeq]]
      cases List.lookup k d <;> rfl

/-- Claim C4: when a shell's candidate order is three files of which the
first and the third exist and both define `X` (with different values), the
merged variable map of `get_all_variables` gives `X` the third file's value:
the last existing file in candidate order wins. -/
theorem C4_merge_precedence (st : SVState) (sh : Shell) (f1 f2 f3 X v1 v3 : Str)
    (hcand : sh.config_files = [f1, f2, f3])
    (h1 : fsExists st f1 = true) (h3 : fsExists st f3 = true)
    (hv1 : List.lookup X (get_variables_from_file st f1) = some v1)
    (hv3 : List.lookup X (get_variables_from_file st f3) = some v3)
    (hne : v1 ≠ v3) :
    List.lookup sh.value (get_all_variables st [sh]) = some (shellVars st sh) ∧
      List.lookup X (shellVars st sh) = some v3 := by
  constructor
  · show List.lookup sh.value (dictSet [] sh.value (shellVars st sh)) = _
    exact lookup_dictSet_self _ _ _
  · have hnd := nodupKeys_get_vars st f3
    unfold shellVars find_existing_config_files
    rw [hcand]
    by_cases h2 : fsExists st f2 = true
    · rw [show List.filter (fun f => fsExists st f) [f1, f2, f3] = [f1, f2, f3] by
        simp [List.filter_cons, h1, h2, h3]]
      show List.lookup X
        (dictUpdate
          (dictUpdate (dictUpdate [] (get_variables_from_file st f1))
            (get_variables_from_file st f2))
          (get_variables_from_file st f3)) = some v3
      rw [lookup_dictUpdate, lookup_reverse_of_nodup hnd, hv3]
      rfl
    · rw [show List.filter (fun f => fsExists st f) [f1, f2, f3] = [f1, f3] by
        simp [List.filter_cons, h1, h2, h3]]
      show List.lookup X
        (dictUpdate (dictUpdate [] (get_variables_from_file st f1))
          (get_variables_from_file st f3)) = some v3
      rw [lookup_dictUpdate, lookup_reverse_of_nodup hnd, hv3]
      rfl

/-- Witness for C4 at a bash setup where `.bashrc` has `X=1`, `.bash_profile`
is absent and `.profile` has `X=2`: the merged value is `2`. -/
theorem C4_merge_precedence_witness :
    Shell.bash.config_files =
        [home ++ "/.bashrc".data, home ++ "/.bash_profile".data, home ++ "/.profile".data] ∧
      fsExists stC4 (home ++ "/.bashrc".data) = true ∧
      fsExists stC4 (home ++ "/.profile".data) = true ∧
      List.lookup ("X".data) (get_variables_from_file stC4 (home ++ "/.bashrc".data)) =
        some ("1".data) ∧
      List.lookup ("X".data) (get_variables_from_file stC4 (home ++ "/.profile".data)) =
        some ("2".data) ∧
      List.lookup (Shell.bash.value) (get_all_variables stC4 [Shell.bash]) =
          some (shellVars stC4 Shell.bash) ∧
      List.lookup ("X".data) (shellVars stC4 Shell.bash) = some ("2".data) :=
  ⟨by decide, by decide, by decide, by decide, by decide,
    C4_merge_precedence stC4 Shell.bash (home ++ "/.bashrc".data)
      (home ++ "/.bash_profile".data) (home ++ "/.profile".data) ("X".data) ("1".data)
      ("2".data) (by decide) (by decide) (by decide) (by decide) (by decide) (by decide)⟩

/-- Claim C2 evidence of a code bug: backing up `~/.bashrc` and restoring the
returned archive reports success and the listing surfaces the message and
timestamp, but the restore destination prepends a dot to the entry name
`.bashrc` (which already starts with one), so the archived bytes are written
to `~/..bashrc` while `~/.bashrc` keeps its post-backup contents — the
archive round-trip never restores the original file. -/
theorem C2_archive_roundtrip_bug :
    (create_backup true false true stC2 [home ++ "/.bashrc".data] (some ("msg".data))).1 =
        some (backupDir ++ "backup_20260101_000000.zip".data) ∧
      stC2restored.1 = true ∧
      restoreDest (".bashrc".data) ≠ home ++ "/.bashrc".data ∧
      List.lookup (home ++ "/.bashrc".data) stC2restored.2.fs =
        some ("export A=2\n".data) ∧
      List.lookup (home ++ "/..bashrc".data) stC2restored.2.fs =
        some ("export A=1\n".data) ∧
      (list_backups stC2restored.2 10).map (fun b => (b.message, b.timestamp)) =
        [("msg".data, "20260101_000000".data)] :=
  ⟨by decide, by decide, by decide, by decide, by decide, by decide⟩

theorem matchesName_iff (l n : Str) :
    matchesName l n = true ↔ ∃ q, parse_export_line l = some q ∧ q.1 = n := by
  unfold matchesName
  cases h : parse_export_line l with
  | none => simp
  | some q => simp

theorem tryBare_name_ident {t : Str} {q : Str × Str} (h : tryBare t = some q) :
    isIdentName q.1 = true := by
  cases t with
  | nil => exact absurd h (by simp [tryBare])
  | cons c u =>
    rw [tryBare_cons] at h
    by_cases hc : isIdentStart c = true
    · rw [if_pos hc] at h
      cases hd : (c :: u).dropWhile isIdentChar with
      | nil =>
        rw [hd] at h
        exact absurd h (by simp)
      | cons d ds =>
        rw [hd] at h
        by_cases hde : d = '='
        · subst hde
          obtain ⟨v, hv, he⟩ := Option.map_eq_some'.mp h
          have hq1 : q.1 = (c :: u).takeWhile isIdentChar := by rw [← he]
          rw [hq1, List.takeWhile_cons_of_pos (identStart_identChar hc)]
          show (isIdentStart c && (u.takeWhile isIdentChar).all isIdentChar) = true
          rw [hc]
          simp only [Bool.true_and, List.all_eq_true]
          intro a ha
          exact List.mem_takeWhile_imp ha
        · exfalso
          revert h
          split
          · next r heq =>
              intro _
              injection heq with h1 _
              exact hde h1
          · intro h
            exact absurd h (by simp)
    · rw [if_neg hc] at h
      exact absurd h (by simp)

theorem tryExportForm_name_ident {t : Str} {q : Str × Str} (h : tryExportForm t = some q) :
    isIdentName q.1 = true := by
  unfold tryExportForm at h
  by_cases h6 : t.take 6 = exportWord
  · rw [if_pos h6] at h
    cases hd : t.drop 6 with
    | nil =>
      rw [hd] at h
      exact absurd h (by simp)
    | cons c u =>
      rw [hd] at h
      dsimp only at h
      by_cases hw : isPyWs c = true
      · rw [if_pos hw] at h
        exact tryBare_name_ident h
      · rw [if_neg hw] at h
        exact absurd h (by simp)
  · rw [if_neg h6] at h
    exact absurd h (by simp)

theorem parse_name_ident {l : Str} {q : Str × Str} (h : parse_export_line l = some q) :
    isIdentName q.1 = true := by
  unfold parse_export_line at h
  cases he : tryExportForm (l.dropWhile isPyWs) with
  | some r =>
    rw [he] at h
    injection h with h1
    subst h1
    exact tryExportForm_name_ident he
  | none =>
    rw [he] at h
    exact tryBare_name_ident h

theorem mem_dictSet {β : Type} {d : List (Str × β)} {k : Str} {v : β} {q : Str × β}
    (h : q ∈ dictSet d k v) : q ∈ d ∨ q.1 = k := by
  unfold dictSet at h
  by_cases hs : (List.lookup k d).isSome = true
  · rw [if_pos hs] at h
    obtain ⟨p, hp, he⟩ := List.mem_map.mp h
    by_cases hpk : p.1 = k
    · rw [if_pos hpk] at he
      right
      rw [← he]
    · rw [if_neg hpk] at he
      left
      rw [← he]
      exact hp
  · rw [if_neg hs] at h
    rcases List.mem_append.mp h with h | h
    · exact Or.inl h
    · right
      rw [List.mem_singleton.mp h]

theorem varsFromLines_keys_ident (lines : List Str) :
    ∀ q ∈ varsFromLines lines, isIdentName q.1 = true := by
  unfold varsFromLines
  have key : ∀ (ls : List Str) (d : List (Str × Str)),
      (∀ q ∈ d, isIdentName q.1 = true) →
      ∀ q ∈ ls.foldl
        (fun d l =>
          match parse_export_line l with
          | some p => dictSet d p.1 p.2
          | none => d) d, isIdentName q.1 = true := by
    intro ls
    induction ls with
    | nil => intro d hd q hq; exact hd q hq
    | cons l ls ih =>
      intro d hd q hq
      rw [List.foldl_cons] at hq
      cases hp : parse_export_line l with
      | none =>
        rw [hp] at hq
        exact ih d hd q hq
      | some p =>
        rw [hp] at hq
        refine ih _ ?_ q hq
        intro r hr
        rcases mem_dictSet hr with hr | hr
        · exact hd r hr
        · rw [hr]
          exact parse_name_ident hp
  exact key lines [] (by intro q hq; exact absurd hq (List.not_mem_nil q))

theorem mem_dictUpdate_keys {β : Type} (e : List (Str × β)) :
    ∀ (d : List (Str × β)) (q : Str × β), q ∈ dictUpdate d e →
      q ∈ d ∨ ∃ p ∈ e, q.1 = p.1 := by
  induction e with
  | nil => intro d q h; exact Or.inl h
  | cons p e ih =>
    intro d q h
    rcases ih (dictSet d p.1 p.2) q h with h | ⟨r, hr, he⟩
    · rcases mem_dictSet h with h | h
      · exact Or.inl h
      · exact Or.inr ⟨p, List.mem_cons_self _ _, h⟩
    · exact Or.inr ⟨r, List.mem_cons_of_mem _ hr, he⟩

theorem shellVars_keys_ident (st : SVState) (sh : Shell) :
    ∀ q ∈ shellVars st sh, isIdentName q.1 = true := by
  unfold shellVars
  have key : ∀ (fsl : List Str) (d : List (Str × Str)),
      (∀ q ∈ d, isIdentName q.1 = true) →
      ∀ q ∈ fsl.foldl (fun acc f => dictUpdate acc (get_variables_from_file st f)) d,
        isIdentName q.1 = true := by
    intro fsl
    induction fsl with
    | nil => intro d hd q hq; exact hd q hq
    | cons f fsl ih =>
      intro d hd q hq
      rw [List.foldl_cons] at hq
      refine ih _ ?_ q hq
      intro r hr
      rcases mem_dictUpdate_keys _ d r hr with hr | ⟨p, hp, he⟩
      · exact hd r hr
      · rw [he]
        exact varsFromLines_keys_ident _ p hp
  exact key _ [] (by intro q hq; exact absurd hq (List.not_mem_nil q))

theorem lastAssign_concat (ls : List Str) (l y : Str) :
    lastAssign (ls ++ [l]) y = (assignOf l y).or (lastAssign ls y) := by
  unfold lastAssign
  rw [List.reverse_append, List.reverse_singleton, List.singleton_append,
    List.findSome?_cons]
  cases assignOf l y <;> rfl

theorem lookup_varsFromLines (lines : List Str) (y : Str) :
    List.lookup y (varsFromLines lines) = lastAssign lines y := by
  induction lines using List.reverseRecOn with
  | nil => rfl
  | append_singleton ls l ih =>
    rw [lastAssign_concat]
    unfold varsFromLines at *
    rw [List.foldl_append, List.foldl_cons, List.foldl_nil]
    unfold assignOf
    cases hp : parse_export_line l with
    | none => exact ih
    | some p =>
      dsimp only
      by_cases hpy : p.1 = y
      · rw [if_pos hpy, hpy, lookup_dictSet_self]
        rfl
      · rw [if_neg hpy, lookup_dictSet_ne _ (fun he => hpy he.symm)]
        exact ih

theorem assignOf_not_matches {l n : Str} (h : matchesName l n = false) :
    assignOf l n = none := by
  unfold assignOf
  unfold matchesName at h
  cases hp : parse_export_line l with
  | none => rfl
  | some q =>
    rw [hp] at h
    dsimp only
    rw [if_neg (by simpa using h)]

theorem assignOf_other {l n y : Str} (hm : matchesName l n = true) (hy : y ≠ n) :
    assignOf l y = none := by
  obtain ⟨q, hq, hq1⟩ := (matchesName_iff l n).mp hm
  unfold assignOf
  rw [hq]
  dsimp only
  rw [if_neg (by rw [hq1]; exact fun he => hy he.symm)]

theorem assignOf_fline {n v w : Str}
    (hw : parse_export_line (format_export_line n v) = some (n, w)) (y : Str) :
    assignOf (format_export_line n v) y = if n = y then some w else none := by
  unfold assignOf
  rw [hw]

theorem assignOf_append_nl {l y : Str} (h : '\n' ∉ l) :
    assignOf (l ++ ['\n']) y = assignOf l y := by
  unfold assignOf
  rw [parse_append_nl h]

theorem lastAssign_map_repl_self (ls : List Str) {n v w : Str}
    (hw : parse_export_line (format_export_line n v) = some (n, w))
    (hany : ls.any (fun l => matchesName l n) = true) :
    lastAssign (ls.map (fun l => if matchesName l n then format_export_line n v else l)) n =
      some w := by
  induction ls using List.reverseRecOn with
  | nil => simp at hany
  | append_singleton ls l ih =>
    rw [List.map_append, List.map_singleton, lastAssign_concat]
    by_cases hm : matchesName l n = true
    · rw [if_pos hm, assignOf_fline hw n, if_pos rfl]
      rfl
    · rw [if_neg hm, assignOf_not_matches (by simpa using hm)]
      have hany' : ls.any (fun l => matchesName l n) = true := by
        rcases List.any_eq_true.mp hany with ⟨x, hx, hpx⟩
        rcases List.mem_append.mp hx with hx | hx
        · exact List.any_eq_true.mpr ⟨x, hx, hpx⟩
        · rw [List.mem_singleton.mp hx] at hpx
          exact absurd hpx hm
      exact ih hany'

theorem lastAssign_map_repl_other (ls : List Str) {n v w : Str} (y : Str)
    (hw : parse_export_line (format_export_line n v) = some (n, w)) (hy : y ≠ n) :
    lastAssign (ls.map (fun l => if matchesName l n then format_export_line n v else l)) y =
      lastAssign ls y := by
  induction ls using List.reverseRecOn with
  | nil => rfl
  | append_singleton ls l ih =>
    rw [List.map_append, List.map_singleton, lastAssign_concat, lastAssign_concat]
    by_cases hm : matchesName l n = true
    · rw [if_pos hm, assignOf_fline hw y, if_neg (fun he => hy he.symm),
        assignOf_other hm hy, ih]
    · rw [if_neg hm, ih]

theorem lookup_vars_update (c n v y w : Str) (hn : isIdentName n = true) (hv : '\n' ∉ v)
    (hw : parse_export_line (format_export_line n v) = some (n, w)) :
    List.lookup y (varsFromLines (pyReadlines (updateFileContent c n v))) =
      if y = n then some w else List.lookup y (varsFromLines (pyReadlines c)) := by
  rw [readlines_update c n v hn hv, lookup_varsFromLines, lookup_varsFromLines]
  unfold updatedLines
  by_cases hany : (pyReadlines c).any (fun l => matchesName l n) = true
  · rw [if_pos hany]
    by_cases hyn : y = n
    · subst hyn
      rw [if_pos rfl, lastAssign_map_repl_self _ hw hany]
    · rw [if_neg hyn, lastAssign_map_repl_other _ y hw hyn]
  · rw [if_neg hany]
    by_cases hnil : pyReadlines c = []
    · rw [if_pos hnil]
      rw [show [format_export_line n v] = ([] : List Str) ++ [format_export_line n v] by simp,
        lastAssign_concat, assignOf_fline hw y]
      by_cases hyn : y = n
      · subst hyn
        rw [if_pos rfl, if_pos rfl]
        rfl
      · rw [if_neg (fun he => hyn he.symm), if_neg hyn, hnil]
        rfl
    · rw [if_neg hnil]
      by_cases hlast : lastEndsNl (pyReadlines c) = true
      · rw [if_pos hlast, lastAssign_concat, assignOf_fline hw y]
        by_cases hyn : y = n
        · subst hyn
          rw [if_pos rfl, if_pos rfl]
          rfl
        · rw [if_neg (fun he => hyn he.symm), if_neg hyn]
          rfl
      · rw [if_neg hlast]
        obtain ⟨xs, m, hsm⟩ : ∃ xs m, pyReadlines c = xs ++ [m] := by
          rcases List.eq_nil_or_concat (pyReadlines c) with h | ⟨xs, m, h⟩
          · exact absurd h hnil
          · exact ⟨xs, m, by simpa using h⟩
        have hmnl : '\n' ∉ m := by
          have hPL := ProperLines_pyReadlines c
          rw [hsm] at hPL
          obtain ⟨_, hm⟩ := ProperLines_concat_parts hPL
          refine no_nl_of_properLine_not_endNl hm ?_
          intro he
          rw [hsm, lastEndsNl_concat, he] at hlast
          exact hlast (by simp)
        rw [hsm, List.dropLast_concat, List.getLast?_concat]
        rw [show xs ++ [(some m).getD [] ++ ['\n'], format_export_line n v] =
            (xs ++ [(some m).getD [] ++ ['\n']]) ++ [format_export_line n v] by simp,
          lastAssign_concat, assignOf_fline hw y]
        by_cases hyn : y = n
        · subst hyn
          rw [if_pos rfl, if_pos rfl]
          rfl
        · rw [if_neg (fun he => hyn he.symm), if_neg hyn]
          show lastAssign (xs ++ [(some m).getD [] ++ ['\n']]) y = lastAssign (xs ++ [m]) y
          rw [lastAssign_concat, lastAssign_concat,
            show ((some m).getD [] : Str) = m from rfl, assignOf_append_nl hmnl]

theorem buildChanges_eq_filterMap (src dst : List (Str × Str)) :
    buildChanges src dst = src.filterMap (fun p =>
      if List.lookup p.1 dst = some p.2 then none
      else some (p.1, p.2, (List.lookup p.1 dst).getD ("[not set]".data))) := by
  unfold buildChanges
  have key : ∀ (l : List (Str × Str)) (acc : List (Str × Str × Str)),
      l.foldl
        (fun acc p =>
          if List.lookup p.1 dst = some p.2 then acc
          else acc ++ [(p.1, p.2, (List.lookup p.1 dst).getD ("[not set]".data))]) acc
      = acc ++ l.filterMap (fun p =>
          if List.lookup p.1 dst = some p.2 then none
          else some (p.1, p.2, (List.lookup p.1 dst).getD ("[not set]".data))) := by
    intro l
    induction l with
    | nil => intro acc; simp
    | cons p l ih =>
      intro acc
      rw [List.foldl_cons]
      by_cases hp : List.lookup p.1 dst = some p.2
      · rw [if_pos hp, ih, List.filterMap_cons_none (by rw [if_pos hp])]
      · rw [if_neg hp, ih, List.filterMap_cons_some (by rw [if_neg hp])]
        simp
  rw [key src [], List.nil_append]

theorem mem_buildChanges {src dst : List (Str × Str)} {c : Str × Str × Str}
    (h : c ∈ buildChanges src dst) :
    (c.1, c.2.1) ∈ src ∧ ¬List.lookup c.1 dst = some c.2.1 := by
  rw [buildChanges_eq_filterMap] at h
  obtain ⟨p, hp, he⟩ := List.mem_filterMap.mp h
  by_cases hc : List.lookup p.1 dst = some p.2
  · rw [if_pos hc] at he
    exact absurd he (by simp)
  · rw [if_neg hc] at he
    have hce := Option.some.inj he
    rw [← hce]
    exact ⟨by rw [Prod.mk.eta]; exact hp, hc⟩

theorem buildChanges_mem_of {src dst : List (Str × Str)} {p : Str × Str}
    (hp : p ∈ src) (hc : ¬List.lookup p.1 dst = some p.2) :
    (p.1, p.2, (List.lookup p.1 dst).getD ("[not set]".data)) ∈ buildChanges src dst := by
  rw [buildChanges_eq_filterMap]
  exact List.mem_filterMap.mpr ⟨p, hp, by rw [if_neg hc]⟩

theorem buildChanges_nil_iff (src dst : List (Str × Str)) :
    buildChanges src dst = [] ↔ ∀ p ∈ src, List.lookup p.1 dst = some p.2 := by
  rw [buildChanges_eq_filterMap, List.filterMap_eq_nil_iff]
  constructor
  · intro h p hp
    have hh := h p hp
    by_cases hc : List.lookup p.1 dst = some p.2
    · exact hc
    · rw [if_neg hc] at hh
      exact absurd hh (by simp)
  · intro h p hp
    rw [if_pos (h p hp)]

theorem buildChanges_names_sublist (src dst : List (Str × Str)) :
    ((buildChanges src dst).map (fun c => c.1)).Sublist (src.map Prod.fst) := by
  rw [buildChanges_eq_filterMap]
  induction src with
  | nil => simp
  | cons p l ih =>
    by_cases hp : List.lookup p.1 dst = some p.2
    · rw [List.filterMap_cons_none (by rw [if_pos hp]), List.map_cons]
      exact ih.cons p.1
    · rw [List.filterMap_cons_some (by rw [if_neg hp]), List.map_cons, List.map_cons]
      exact ih.cons₂ p.1

theorem lookup_eq_of_mem_nodup {β : Type} {d : List (Str × β)} (h : NodupKeys d)
    {p : Str × β} (hp : p ∈ d) : List.lookup p.1 d = some p.2 := by
  induction d with
  | nil => exact absurd hp (List.not_mem_nil p)
  | cons q d ih =>
    obtain ⟨a, b⟩ := q
    have hnd : NodupKeys d := (List.nodup_cons.mp h).2
    have hnq : a ∉ d.map Prod.fst := (List.nodup_cons.mp h).1
    rcases List.mem_cons.mp hp with rfl | hp
    · rw [List.lookup_cons]
      simp
    · have hne : (p.1 == a) = false := by
        have hpa : p.1 ≠ a := by
          intro he
          exact hnq (he ▸ List.mem_map.mpr ⟨p, hp, rfl⟩)
        simpa using hpa
      rw [List.lookup_cons, hne]
      exact ih hnd hp

theorem existing_congr (st st' : SVState) (sh : Shell)
    (h : ∀ p ∈ sh.config_files, fsExists st' p = fsExists st p) :
    find_existing_config_files st' sh = find_existing_config_files st sh := by
  unfold find_existing_config_files
  exact List.filter_congr h

theorem shellVars_congr (st st' : SVState) (sh : Shell)
    (h : ∀ p ∈ sh.config_files, List.lookup p st'.fs = List.lookup p st.fs) :
    shellVars st' sh = shellVars st sh := by
  unfold shellVars
  rw [existing_congr st st' sh (fun p hp => by unfold fsExists; rw [h p hp])]
  have hsub : ∀ f ∈ find_existing_config_files st sh,
      get_variables_from_file st' f = get_variables_from_file st f := by
    intro f hf
    unfold get_variables_from_file read_config_file
    rw [h f (List.mem_of_mem_filter hf)]
  have key : ∀ (l : List Str) (d : List (Str × Str)),
      (∀ f ∈ l, get_variables_from_file st' f = get_variables_from_file st f) →
      l.foldl (fun acc f => dictUpdate acc (get_variables_from_file st' f)) d =
        l.foldl (fun acc f => dictUpdate acc (get_variables_from_file st f)) d := by
    intro l
    induction l with
    | nil => intro d _; rfl
    | cons f l ih =>
      intro d hh
      rw [List.foldl_cons, List.foldl_cons, hh f (List.mem_cons_self _ _)]
      exact ih _ (fun g hg => hh g (List.mem_cons_of_mem _ hg))
  exact key _ [] hsub

theorem shellVars_single (st : SVState) (tsh : Shell) (F : Str)
    (hex : find_existing_config_files st tsh = [F]) (y : Str) :
    List.lookup y (shellVars st tsh) = List.lookup y (get_variables_from_file st F) := by
  unfold shellVars
  rw [hex]
  show List.lookup y (dictUpdate [] (get_variables_from_file st F)) = _
  rw [lookup_dictUpdate, lookup_reverse_of_nodup (nodupKeys_get_vars st F)]
  cases List.lookup y (get_variables_from_file st F) <;> rfl

theorem set_variable_single (be conf z : Bool) (st : SVState) (x v : Str) (tsh : Shell)
    (F : Str) (hex : find_existing_config_files st tsh = [F]) (hx : isIdentName x = true) :
    (set_variable be false conf z st x v [tsh] true none).1 = true ∧
      (set_variable be false conf z st x v [tsh] true none).2.fs =
        dictSet st.fs F (updateFileContent ((List.lookup F st.fs).getD []) x v) := by
  have hval : pyValidName x = true := by
    unfold pyValidName
    rw [hx]
    rfl
  have hcol : setCollectShell false x ([], st) tsh = ([F], st) := by
    unfold setCollectShell
    dsimp only
    rw [hex]
    dsimp only
    cases hq : (List.lookup x (get_variables_from_file st F)).isSome <;>
      simp [List.find?_cons, hq]
  have hfold : List.foldl (setCollectShell false x) ([], st) [tsh] = ([F], st) := by
    rw [show ([tsh] : List Shell) = tsh :: [] from rfl, List.foldl_cons, hcol, List.foldl_nil]
  unfold set_variable
  rw [if_neg (by simp [hval])]
  dsimp only
  rw [hfold]
  dsimp only
  rw [if_neg (by simp)]
  by_cases hb : be ∧ ¬false ∧ ([F] : List Str) ≠ []
  · rw [if_pos hb, setApply_eq]
    refine ⟨rfl, ?_⟩
    show applyFsOnly false x v [F]
      (create_backup be false z st [F]
        (some ("Before setting".data ++ ' ' :: x ++ '=' :: v))).2.fs = _
    rw [create_backup_fs]
    rfl
  · rw [if_neg hb, setApply_eq]
    exact ⟨rfl, rfl⟩

/-- Witness for the amended C5 at ` export A= 'x y' ` shaped input. -/
theorem C5_value_amended_witness :
    (∀ c ∈ ([' '] : Str), isPyWs c = true) ∧ isIdentName ("A".data) = true ∧
      '\n' ∉ (" x".data) ∧
      parse_export_line ([' '] ++ (exportWord ++ ' ' :: ("A".data ++ '=' :: " x".data))) =
        some ("A".data, stripQuotes (pyStrip (" x".data))) :=
  ⟨by decide, by decide, by decide,
    (C5_value_amended [' '] ("A".data) (" x".data) (by decide) (by decide) (by decide)).1⟩

theorem syncFoldTo_nil (be conf z : Bool) (tsh : Shell) (acc : Bool × SVState) :
    syncFoldTo be conf z tsh [] acc = acc := rfl

theorem syncFoldTo_cons (be conf z : Bool) (tsh : Shell) (c : Str × Str × Str)
    (ch : List (Str × Str × Str)) (b : Bool) (stc : SVState) :
    syncFoldTo be conf z tsh (c :: ch) (b, stc) =
      syncFoldTo be conf z tsh ch
        (b && (set_variable be false conf z stc c.1 c.2.1 [tsh] true none).1,
         (set_variable be false conf z stc c.1 c.2.1 [tsh] true none).2) := rfl

theorem sync_fold_props (be conf z : Bool) (tsh : Shell) (F : Str) (st0 : SVState) :
    ∀ (ch : List (Str × Str × Str)) (b : Bool) (stc : SVState),
      (∀ c ∈ ch, parse_export_line (format_export_line c.1 c.2.1) = some (c.1, c.2.1)) →
      (∀ p, p ≠ F → List.lookup p stc.fs = List.lookup p st0.fs) →
      find_existing_config_files stc tsh = [F] →
      (ch.map (fun c => c.1)).Nodup →
      (∀ p, p ≠ F →
          List.lookup p (syncFoldTo be conf z tsh ch (b, stc)).2.fs = List.lookup p st0.fs) ∧
        find_existing_config_files (syncFoldTo be conf z tsh ch (b, stc)).2 tsh = [F] ∧
        (∀ c ∈ ch,
          List.lookup c.1
              (get_variables_from_file (syncFoldTo be conf z tsh ch (b, stc)).2 F) =
            some c.2.1) ∧
        (∀ y, y ∉ ch.map (fun c => c.1) →
          List.lookup y (get_variables_from_file (syncFoldTo be conf z tsh ch (b, stc)).2 F) =
            List.lookup y (get_variables_from_file stc F)) := by
  intro ch
  induction ch with
  | nil =>
    intro b stc _ hframe hex _
    exact ⟨hframe, hex, fun c hc => absurd hc (List.not_mem_nil c), fun y _ => rfl⟩
  | cons c ch ih =>
    intro b stc hrt hframe hex hnd
    have hw : parse_export_line (format_export_line c.1 c.2.1) = some (c.1, c.2.1) :=
      hrt c (List.mem_cons_self _ _)
    have hn : isIdentName c.1 = true := parse_name_ident hw
    have hv : '\n' ∉ c.2.1 := no_nl_of_parse_format hn hw
    have hstep := set_variable_single be conf z stc c.1 c.2.1 tsh F hex hn
    have hfs1 : (set_variable be false conf z stc c.1 c.2.1 [tsh] true none).2.fs =
        dictSet stc.fs F (updateFileContent ((List.lookup F stc.fs).getD []) c.1 c.2.1) :=
      hstep.2
    have hFmem : F ∈ find_existing_config_files stc tsh := by
      rw [hex]
      exact List.mem_singleton_self F
    have hexF : fsExists stc F = true := by
      unfold find_existing_config_files at hFmem
      exact (List.mem_filter.mp hFmem).2
    have frame1 : ∀ p, p ≠ F →
        List.lookup p (set_variable be false conf z stc c.1 c.2.1 [tsh] true none).2.fs =
          List.lookup p st0.fs := by
      intro p hp
      rw [hfs1, lookup_dictSet_ne _ hp]
      exact hframe p hp
    have hfe : ∀ p ∈ tsh.config_files,
        fsExists (set_variable be false conf z stc c.1 c.2.1 [tsh] true none).2 p =
          fsExists stc p := by
      intro p _
      by_cases hpF : p = F
      · subst hpF
        unfold fsExists
        rw [hfs1, lookup_dictSet_self]
        exact hexF.symm
      · unfold fsExists
        rw [hfs1, lookup_dictSet_ne _ hpF]
    have ex1 : find_existing_config_files
        (set_variable be false conf z stc c.1 c.2.1 [tsh] true none).2 tsh = [F] := by
      rw [existing_congr stc _ tsh hfe]
      exact hex
    have hvars1 : ∀ y,
        List.lookup y (get_variables_from_file
            (set_variable be false conf z stc c.1 c.2.1 [tsh] true none).2 F) =
          if y = c.1 then some c.2.1
          else List.lookup y (get_variables_from_file stc F) := by
      intro y
      unfold get_variables_from_file read_config_file
      rw [hfs1, lookup_dictSet_self, Option.getD_some]
      exact lookup_vars_update ((List.lookup F stc.fs).getD []) c.1 c.2.1 y c.2.1 hn hv hw
    rw [List.map_cons] at hnd
    obtain ⟨hcnot, hndt⟩ := List.nodup_cons.mp hnd
    obtain ⟨A, B, C, D⟩ :=
      ih (b && (set_variable be false conf z stc c.1 c.2.1 [tsh] true none).1)
        (set_variable be false conf z stc c.1 c.2.1 [tsh] true none).2
        (fun c' hc' => hrt c' (List.mem_cons_of_mem _ hc')) frame1 ex1 hndt
    rw [syncFoldTo_cons]
    refine ⟨A, B, ?_, ?_⟩
    · intro c' hc'
      rcases List.mem_cons.mp hc' with rfl | hc'
      · rw [D c'.1 hcnot, hvars1 c'.1, if_pos rfl]
      · exact C c' hc'
    · intro y hy
      rw [List.map_cons] at hy
      have hyne : y ≠ c.1 := by
        intro he
        exact hy (List.mem_cons.mpr (Or.inl he))
      have hynot : y ∉ List.map (fun c => c.1) ch := by
        intro hm
        exact hy (List.mem_cons.mpr (Or.inr hm))
      rw [D y hynot, hvars1 y, if_neg hyne]

/-- Claim C1 counterexample: bash has two existing candidate files that both
define `X` (`.bashrc` with 1, `.profile` with 2, so the merged read takes 2
from the later file) while zsh's `.zshrc` gives `X=5`; syncing zsh to bash
writes `X=5` into the *first* existing file `.bashrc`, the merged bash map
still reads `X=2` from `.profile`, and the recomputed plan is not empty. -/
theorem C1_sync_convergence_cex :
    buildPlan (sync_variables true false true true stC1 .zsh [.bash] none true).2 .zsh [.bash]
      (shellVars (sync_variables true false true true stC1 .zsh [.bash] none true).2 .zsh) ≠
      [] := by decide

/-- Claim C1 (amended): sync convergence holds once the read/write precedence
mismatch cannot bite: if the destination shell has exactly one existing
configuration file `F`, `F` is not among the source shell's candidate files,
and every source variable's formatted line parses back to itself, then after
`sync_variables` from the source to that single destination (no filter
patterns, confirmation pre-approved) the recomputed plan for the same source
and destination is empty. -/
theorem C1_sync_convergence_amended (be conf z : Bool) (st : SVState)
    (fromShell tsh : Shell) (F : Str)
    (hex : find_existing_config_files st tsh = [F])
    (hF : F ∉ fromShell.config_files)
    (hrt : ∀ p ∈ shellVars st fromShell,
      parse_export_line (format_export_line p.1 p.2) = some p) :
    buildPlan (sync_variables be false conf z st fromShell [tsh] none true).2 fromShell [tsh]
      (shellVars (sync_variables be false conf z st fromShell [tsh] none true).2 fromShell) =
      [] := by
  have hFt : F ∈ tsh.config_files := by
    have h1 : F ∈ find_existing_config_files st tsh := by
      rw [hex]
      exact List.mem_singleton_self F
    unfold find_existing_config_files at h1
    exact (List.mem_filter.mp h1).1
  have hne : tsh ≠ fromShell := by
    intro he
    rw [he] at hFt
    exact hF hFt
  have hplan_empty : ∀ (st' : SVState) (src : List (Str × Str)),
      (∀ p ∈ src, List.lookup p.1 (shellVars st' tsh) = some p.2) →
      buildPlan st' fromShell [tsh] src = [] := by
    intro st' src hsrc
    unfold buildPlan
    rw [List.foldl_cons, List.foldl_nil]
    dsimp only
    rw [if_neg hne, if_pos ((buildChanges_nil_iff src (shellVars st' tsh)).mpr hsrc)]
  unfold sync_variables
  dsimp only
  by_cases h0 : shellVars st fromShell = []
  · rw [if_pos h0]
    exact hplan_empty st _ (fun p hp => absurd (h0 ▸ hp) (List.not_mem_nil p))
  · rw [if_neg h0, if_neg h0]
    by_cases hp : buildPlan st fromShell [tsh] (shellVars st fromShell) = []
    · rw [if_pos hp]
      exact hp
    · rw [if_neg hp, if_neg (by simp)]
      have hchne : buildChanges (shellVars st fromShell) (shellVars st tsh) ≠ [] := by
        intro hch
        apply hp
        unfold buildPlan
        rw [List.foldl_cons, List.foldl_nil]
        dsimp only
        rw [if_neg hne, if_pos hch]
      have hplan : buildPlan st fromShell [tsh] (shellVars st fromShell) =
          [(tsh, buildChanges (shellVars st fromShell) (shellVars st tsh))] := by
        unfold buildPlan
        rw [List.foldl_cons, List.foldl_nil]
        dsimp only
        rw [if_neg hne, if_neg hchne, List.nil_append]
      rw [hplan]
      show buildPlan (syncFoldTo be conf z tsh
          (buildChanges (shellVars st fromShell) (shellVars st tsh)) (true, st)).2
        fromShell [tsh]
        (shellVars (syncFoldTo be conf z tsh
          (buildChanges (shellVars st fromShell) (shellVars st tsh)) (true, st)).2 fromShell) =
        []
      have hrtch : ∀ c ∈ buildChanges (shellVars st fromShell) (shellVars st tsh),
          parse_export_line (format_export_line c.1 c.2.1) = some (c.1, c.2.1) := by
        intro c hc
        exact hrt (c.1, c.2.1) (mem_buildChanges hc).1
      have hndch : ((buildChanges (shellVars st fromShell) (shellVars st tsh)).map
          (fun c => c.1)).Nodup :=
        List.Nodup.sublist (buildChanges_names_sublist _ _) (nodupKeys_shellVars st fromShell)
      obtain ⟨A, B, C, D⟩ := sync_fold_props be conf z tsh F st
        (buildChanges (shellVars st fromShell) (shellVars st tsh)) true st
        hrtch (fun p _ => rfl) hex hndch
      have hsrc_same : shellVars (syncFoldTo be conf z tsh
          (buildChanges (shellVars st fromShell) (shellVars st tsh)) (true, st)).2 fromShell =
          shellVars st fromShell :=
        shellVars_congr st _ fromShell (fun p hp => A p (fun he => hF (he ▸ hp)))
      rw [hsrc_same]
      apply hplan_empty
      intro p hp
      rw [shellVars_single _ tsh F B p.1]
      by_cases hin : p.1 ∈ (buildChanges (shellVars st fromShell) (shellVars st tsh)).map
          (fun c => c.1)
      · obtain ⟨c, hc, hc1⟩ := List.mem_map.mp hin
        have hc1' : c.1 = p.1 := hc1
        have hC := C c hc
        have h1 : List.lookup c.1 (shellVars st fromShell) = some c.2.1 :=
          lookup_eq_of_mem_nodup (nodupKeys_shellVars st fromShell) (mem_buildChanges hc).1
        have h2 : List.lookup p.1 (shellVars st fromShell) = some p.2 :=
          lookup_eq_of_mem_nodup (nodupKeys_shellVars st fromShell) hp
        rw [hc1'] at h1
        have he : c.2.1 = p.2 := Option.some.inj (h1.symm.trans h2)
        rw [← hc1', ← he]
        exact hC
      · have hpd : List.lookup p.1 (shellVars st tsh) = some p.2 := by
          by_contra hcon
          exact hin (List.mem_map.mpr
            ⟨(p.1, p.2, (List.lookup p.1 (shellVars st tsh)).getD ("[not set]".data)),
              buildChanges_mem_of hp hcon, rfl⟩)
        rw [D p.1 hin, ← shellVars_single st tsh F hex p.1]
        exact hpd

/-- Witness for the amended C1: with zsh sources `.zshrc` (`X=5`) and bash
owning the single existing file `.bashrc`, syncing zsh to bash converges. -/
theorem C1_sync_convergence_amended_witness :
    find_existing_config_files stC1w .bash = [home ++ "/.bashrc".data] ∧
      (home ++ "/.bashrc".data) ∉ Shell.zsh.config_files ∧
      (∀ p ∈ shellVars stC1w .zsh,
        parse_export_line (format_export_line p.1 p.2) = some p) ∧
      buildPlan (sync_variables true false true true stC1w .zsh [.bash] none true).2 .zsh
        [.bash]
        (shellVars (sync_variables true false true true stC1w .zsh [.bash] none true).2 .zsh) =
        [] :=
  ⟨by decide, by decide, by decide,
    C1_sync_convergence_amended true true true stC1w .zsh .bash (home ++ "/.bashrc".data)
      (by decide) (by decide) (by decide)⟩

end Setvar
